import Mathlib

/-!
# Shelley — verification of core algorithms

Shallow embedding, in Lean 4, of the algorithmic core of the Shelley
coding-agent server (Go), together with proofs of the specified
properties: the sub-agent slug normalization pipeline, the
agent-working decision, the sequenced pub/sub overflow policy, message
sequence-ID assignment, schema-migration idempotence, sub-agent slug
collision retry, the deterministic session UUID, the tool-result
content parser, and the stream-adapter flush invariant.

Strings are handled through their character lists; Go byte-level
operations are faithful here because every string reaching them in the
modelled code paths is ASCII after filtering. `Int` stands for Go's
`int64`, `Nat` with explicit `% 2 ^ 32` for `uint32`.
-/

namespace Shelley

/-! ## Sub-agent slug normalization (`ccDescriptionToSlug`)

Translated from `claudecode_loop.go` (`ccDescriptionToSlug`):

```go
func ccDescriptionToSlug(description string) string {
    var b strings.Builder
    for _, r := range strings.ToLower(description) {
        switch {
        case r >= 'a' && r <= 'z', r >= '0' && r <= '9', r == '-':
            b.WriteRune(r)
        case r == ' ', r == '_':
            b.WriteRune('-')
        }
    }
    s := b.String()
    for strings.Contains(s, "--") {
        s = strings.ReplaceAll(s, "--", "-")
    }
    s = strings.Trim(s, "-")
    if len(s) > 40 {
        s = s[:40]
    }
    return s
}
```
-/

/-- Models Go `unicode.ToLower` (as used per-rune by `strings.ToLower`)
on the ASCII plane: `A`–`Z` map to `a`–`z`, everything else in ASCII is
fixed. Non-ASCII runes are left unchanged here; they are discarded by
the subsequent filter either way. -/
def goToLower (c : Char) : Char :=
  if 'A' ≤ c ∧ c ≤ 'Z' then Char.ofNat (c.toNat + 32) else c

/-- The switch's first case: runes kept verbatim (`[a-z0-9-]`). -/
def isSlugKeep (c : Char) : Bool :=
  ('a' ≤ c && c ≤ 'z') || ('0' ≤ c && c ≤ '9') || c = '-'

/-- The builder loop: keep `[a-z0-9-]`, map space and underscore to
`-`, drop everything else. -/
def slugFilterMap (l : List Char) : List Char :=
  l.filterMap fun c =>
    if isSlugKeep c then some c
    else if c = ' ' || c = '_' then some '-'
    else none

/-- Models one `strings.ReplaceAll(s, "--", "-")`: leftmost,
non-overlapping replacement of each `--` by `-`. -/
def replaceAllDD : List Char → List Char
  | '-' :: '-' :: rest => '-' :: replaceAllDD rest
  | c :: rest => c :: replaceAllDD rest
  | [] => []

/-- Models `strings.Contains(s, "--")`. -/
def containsDD (l : List Char) : Prop := ['-', '-'] <:+: l

instance (l : List Char) : Decidable (containsDD l) :=
  List.decidableInfix _ l

theorem replaceAllDD_length_le (l : List Char) :
    (replaceAllDD l).length ≤ l.length := by
  induction l using replaceAllDD.induct with
  | case1 rest ih => simpa [replaceAllDD] using Nat.le_succ_of_le ih
  | case2 c rest hne ih => simpa [replaceAllDD] using ih
  | case3 => simp [replaceAllDD]

theorem replaceAllDD_length_lt {l : List Char} (h : containsDD l) :
    (replaceAllDD l).length < l.length := by
  induction l using replaceAllDD.induct with
  | case1 rest ih =>
    simp only [replaceAllDD, List.length_cons]
    have := replaceAllDD_length_le rest
    omega
  | case2 c rest hne ih =>
    rcases (List.infix_cons_iff.1 h) with hpre | hinf
    · exfalso
      rcases List.cons_prefix_cons.1 hpre with ⟨rfl, hpre2⟩
      rcases rest with _ | ⟨c2, rest2⟩
      · simp at hpre2
      · rcases List.cons_prefix_cons.1 hpre2 with ⟨rfl, -⟩
        exact hne rest2 rfl rfl
    · have := ih hinf
      simp only [replaceAllDD]
      · simp only [List.length_cons]
        omega
  | case3 => simp [containsDD] at h

/-- The collapse loop, run on explicit fuel so that it is structurally
recursive (each iteration strictly shrinks the list, so `l.length`
fuel always suffices; `collapseDD_eq_self` and `collapseDD_step` below
recover the loop's defining equations). -/
def collapseGo : Nat → List Char → List Char
  | 0, l => l
  | fuel + 1, l => if containsDD l then collapseGo fuel (replaceAllDD l) else l

/-- The collapse loop from the source:
`for strings.Contains(s, "--") { s = strings.ReplaceAll(s, "--", "-") }`. -/
def collapseDD (l : List Char) : List Char :=
  collapseGo l.length l

theorem collapseGo_fuel_irrel :
    ∀ fuel₁ fuel₂ l, l.length ≤ fuel₁ → l.length ≤ fuel₂ →
      collapseGo fuel₁ l = collapseGo fuel₂ l := by
  intro fuel₁
  induction fuel₁ with
  | zero =>
    intro fuel₂ l h1 _
    have hl : l = [] := List.length_eq_zero.1 (Nat.le_zero.1 h1)
    subst hl
    cases fuel₂ with
    | zero => rfl
    | succ n => simp [collapseGo, containsDD]
  | succ n ih =>
    intro fuel₂ l h1 h2
    cases fuel₂ with
    | zero =>
      have hl : l = [] := List.length_eq_zero.1 (Nat.le_zero.1 h2)
      subst hl
      simp [collapseGo, containsDD]
    | succ m =>
      simp only [collapseGo]
      by_cases h : containsDD l
      · simp only [if_pos h]
        have hlt := replaceAllDD_length_lt h
        exact ih m _ (by omega) (by omega)
      · simp [if_neg h]

theorem collapseDD_eq_self {l : List Char} (h : ¬ containsDD l) :
    collapseDD l = l := by
  unfold collapseDD
  cases l with
  | nil => rfl
  | cons c rest => simp [collapseGo, if_neg h]

theorem collapseDD_step {l : List Char} (h : containsDD l) :
    collapseDD l = collapseDD (replaceAllDD l) := by
  unfold collapseDD
  have hpos : 0 < l.length := by
    rcases h with ⟨s, t, hst⟩
    subst hst
    simp
  obtain ⟨n, hn⟩ : ∃ n, l.length = n + 1 := ⟨l.length - 1, by omega⟩
  rw [hn]
  simp only [collapseGo, if_pos h]
  have hlt := replaceAllDD_length_lt h
  exact collapseGo_fuel_irrel n _ _ (by omega) (by omega)

/-- Models `strings.Trim(s, "-")`: remove leading and trailing `-`. -/
def trimDashes (l : List Char) : List Char :=
  (((l.dropWhile (· == '-')).reverse.dropWhile (· == '-'))).reverse

/-- The final truncation `if len(s) > 40 { s = s[:40] }` (byte length;
the list is ASCII-only at this point, so bytes and characters agree). -/
def truncate40 (l : List Char) : List Char :=
  if l.length > 40 then l.take 40 else l

/-- `ccDescriptionToSlug` from `claudecode_loop.go`, assembled from the
stages above. -/
def ccDescriptionToSlug (s : String) : String :=
  String.mk (truncate40 (trimDashes (collapseDD
    (slugFilterMap (s.data.map goToLower)))))

/-! ### Character-level facts about the slug stages -/

theorem isSlugKeep_mem_slugFilterMap {c : Char} {l : List Char}
    (h : c ∈ slugFilterMap l) : isSlugKeep c = true := by
  rcases List.mem_filterMap.1 h with ⟨a, -, ha⟩
  by_cases hk : isSlugKeep a
  · simp only [slugFilterMap, if_pos hk] at ha
    cases ha; exact hk
  · simp only [slugFilterMap, if_neg hk] at ha
    by_cases hsp : (a = ' ' || a = '_') = true
    · rw [if_pos hsp] at ha
      cases ha; decide
    · rw [if_neg hsp] at ha
      cases ha

theorem goToLower_of_isSlugKeep {c : Char} (h : isSlugKeep c = true) :
    goToLower c = c := by
  have hranges : ('a' ≤ c ∧ c ≤ 'z') ∨ ('0' ≤ c ∧ c ≤ '9') ∨ c = '-' := by
    simpa [isSlugKeep, Bool.or_eq_true, Bool.and_eq_true,
      decide_eq_true_eq, or_assoc] using h
  rw [goToLower, if_neg]
  rintro ⟨hA, hZ⟩
  rcases hranges with ⟨h1, -⟩ | ⟨-, h2⟩ | rfl
  · exact absurd (le_trans h1 hZ) (by decide)
  · exact absurd (le_trans hA h2) (by decide)
  · exact absurd hA (by decide)

theorem map_goToLower_of_keep {l : List Char}
    (h : ∀ c ∈ l, isSlugKeep c = true) : l.map goToLower = l := by
  induction l with
  | nil => rfl
  | cons c rest ih =>
    simp only [List.map_cons, goToLower_of_isSlugKeep (h c (by simp)),
      List.cons.injEq, true_and]
    exact ih fun x hx => h x (List.mem_cons_of_mem _ hx)

theorem slugFilterMap_of_keep {l : List Char}
    (h : ∀ c ∈ l, isSlugKeep c = true) : slugFilterMap l = l := by
  induction l with
  | nil => rfl
  | cons c rest ih =>
    have hc := h c (by simp)
    simp only [slugFilterMap, List.filterMap_cons, if_pos hc]
    exact congrArg (c :: ·) (ih fun x hx => h x (List.mem_cons_of_mem _ hx))

theorem mem_of_mem_replaceAllDD {c : Char} :
    ∀ {l : List Char}, c ∈ replaceAllDD l → c ∈ l := by
  intro l
  induction l using replaceAllDD.induct with
  | case1 rest ih =>
    intro h
    simp only [replaceAllDD] at h
    rcases List.mem_cons.1 h with rfl | h2
    · simp
    · exact List.mem_cons_of_mem _ (List.mem_cons_of_mem _ (ih h2))
  | case2 a rest hne ih =>
    intro h
    simp only [replaceAllDD] at h
    rcases List.mem_cons.1 h with rfl | h2
    · simp
    · exact List.mem_cons_of_mem _ (ih h2)
  | case3 => intro h; simp [replaceAllDD] at h

theorem mem_of_mem_collapseGo {c : Char} :
    ∀ (fuel : Nat) {l : List Char}, c ∈ collapseGo fuel l → c ∈ l := by
  intro fuel
  induction fuel with
  | zero => intro l h; exact h
  | succ n ih =>
    intro l h
    simp only [collapseGo] at h
    split at h
    · exact mem_of_mem_replaceAllDD (ih h)
    · exact h

theorem mem_of_mem_collapseDD {c : Char} {l : List Char}
    (h : c ∈ collapseDD l) : c ∈ l :=
  mem_of_mem_collapseGo _ h

theorem mem_of_mem_trimDashes {c : Char} {l : List Char}
    (h : c ∈ trimDashes l) : c ∈ l := by
  have h1 : c ∈ (l.dropWhile (· == '-')).reverse.dropWhile (· == '-') := by
    simpa [trimDashes] using h
  have h2 := (List.dropWhile_suffix (l := (l.dropWhile (· == '-')).reverse)
    (p := (· == '-'))).subset h1
  exact (List.dropWhile_suffix (p := (· == '-'))).subset (List.mem_reverse.1 h2)

theorem mem_of_mem_truncate40 {c : Char} {l : List Char}
    (h : c ∈ truncate40 l) : c ∈ l := by
  unfold truncate40 at h
  split at h
  · exact List.take_subset _ _ h
  · exact h

/-! ### Absence of `--` survives the later stages -/

theorem not_containsDD_collapseGo :
    ∀ (fuel : Nat) (l : List Char), l.length ≤ fuel →
      ¬ containsDD (collapseGo fuel l) := by
  intro fuel
  induction fuel with
  | zero =>
    intro l h1
    have hl : l = [] := List.length_eq_zero.1 (Nat.le_zero.1 h1)
    subst hl
    simp [collapseGo, containsDD]
  | succ n ih =>
    intro l h1
    simp only [collapseGo]
    by_cases h : containsDD l
    · rw [if_pos h]
      exact ih _ (by have := replaceAllDD_length_lt h; omega)
    · rwa [if_neg h]

theorem not_containsDD_collapseDD (l : List Char) :
    ¬ containsDD (collapseDD l) :=
  not_containsDD_collapseGo _ _ le_rfl

theorem containsDD_reverse {l : List Char} :
    containsDD l.reverse ↔ containsDD l := by
  constructor
  · intro h
    have : (['-', '-'] : List Char).reverse <:+: l.reverse := by
      simpa using h
    simpa using List.reverse_infix.1 this
  · intro h
    have : (['-', '-'] : List Char).reverse <:+: l.reverse :=
      List.reverse_infix.2 h
    simpa using this

theorem not_containsDD_of_infix {l m : List Char}
    (hm : m <:+: l) (h : ¬ containsDD l) : ¬ containsDD m :=
  fun hc => h (hc.trans hm)

theorem not_containsDD_trimDashes {l : List Char}
    (h : ¬ containsDD l) : ¬ containsDD (trimDashes l) := by
  have h1 : ¬ containsDD (l.dropWhile (· == '-')) :=
    not_containsDD_of_infix (List.dropWhile_suffix _).isInfix h
  have h2 : ¬ containsDD ((l.dropWhile (· == '-')).reverse) := by
    rw [containsDD_reverse]; exact h1
  have h3 : ¬ containsDD
      (((l.dropWhile (· == '-')).reverse).dropWhile (· == '-')) :=
    not_containsDD_of_infix (List.dropWhile_suffix _).isInfix h2
  rw [trimDashes]
  rw [containsDD_reverse]
  exact h3

theorem not_containsDD_truncate40 {l : List Char}
    (h : ¬ containsDD l) : ¬ containsDD (truncate40 l) := by
  unfold truncate40
  split
  · exact not_containsDD_of_infix (List.take_prefix _ _).isInfix h
  · exact h

/-! ### Heads and last elements through the trim stage -/

theorem head?_dropWhile_false {p : Char → Bool} :
    ∀ {l : List Char} {a : Char}, (l.dropWhile p).head? = some a → p a = false := by
  intro l
  induction l with
  | nil => intro a h; simp [List.dropWhile] at h
  | cons c rest ih =>
    intro a h
    rw [List.dropWhile_cons] at h
    by_cases hc : p c
    · rw [if_pos hc] at h
      exact ih h
    · rw [if_neg hc] at h
      simp only [List.head?_cons, Option.some.injEq] at h
      subst h
      simpa using hc

theorem dropWhile_eq_self_of_head {p : Char → Bool} {l : List Char}
    (h : ∀ a, l.head? = some a → p a = false) : l.dropWhile p = l := by
  cases l with
  | nil => rfl
  | cons c rest =>
    rw [List.dropWhile_cons, if_neg]
    simp [h c rfl]

theorem head?_eq_of_isPrefixOf {l₁ l₂ : List Char} (h : l₁ <+: l₂)
    (hne : l₁ ≠ []) : l₁.head? = l₂.head? := by
  rcases h with ⟨t, rfl⟩
  cases l₁ with
  | nil => exact absurd rfl hne
  | cons c rest => rfl

theorem reverse_prefix_of_dropWhile_reverse {p : Char → Bool} (l : List Char) :
    ((l.reverse.dropWhile p).reverse) <+: l := by
  have h1 : l.reverse.dropWhile p <:+ l.reverse := List.dropWhile_suffix _
  have h2 : ((l.reverse.dropWhile p).reverse).reverse <:+ l.reverse := by
    simpa using h1
  exact List.reverse_suffix.1 h2

theorem trimDashes_prefix_dropWhile (l : List Char) :
    trimDashes l <+: l.dropWhile (· == '-') :=
  reverse_prefix_of_dropWhile_reverse _

theorem trimDashes_head?_ne {l : List Char} {a : Char}
    (h : (trimDashes l).head? = some a) : a ≠ '-' := by
  have hne : trimDashes l ≠ [] := by
    intro hnil
    rw [hnil] at h
    simp at h
  have := head?_eq_of_isPrefixOf (trimDashes_prefix_dropWhile l) hne
  rw [this] at h
  have := head?_dropWhile_false h
  simpa using this

theorem trimDashes_getLast?_ne {l : List Char} {a : Char}
    (h : (trimDashes l).getLast? = some a) : a ≠ '-' := by
  rw [trimDashes, List.getLast?_reverse] at h
  have := head?_dropWhile_false h
  simpa using this

theorem truncate40_isPrefixOf (l : List Char) : truncate40 l <+: l := by
  unfold truncate40
  split
  · exact List.take_prefix _ _
  · exact List.prefix_refl _

theorem truncate40_length_le (l : List Char) : (truncate40 l).length ≤ 40 := by
  unfold truncate40
  split
  · simp
  · omega

/-! ### C5: slug normalization idempotence -/

theorem slug_data_eq (s : String) :
    (ccDescriptionToSlug s).data = truncate40 (trimDashes (collapseDD
      (slugFilterMap (s.data.map goToLower)))) := rfl

theorem slug_chars_keep {s : String} {c : Char}
    (h : c ∈ (ccDescriptionToSlug s).data) : isSlugKeep c = true := by
  rw [slug_data_eq] at h
  exact isSlugKeep_mem_slugFilterMap
    (mem_of_mem_collapseDD (mem_of_mem_trimDashes (mem_of_mem_truncate40 h)))

theorem slug_not_containsDD (s : String) :
    ¬ containsDD (ccDescriptionToSlug s).data := by
  rw [slug_data_eq]
  exact not_containsDD_truncate40
    (not_containsDD_trimDashes (not_containsDD_collapseDD _))

theorem slug_head?_ne {s : String} {a : Char}
    (h : (ccDescriptionToSlug s).data.head? = some a) : a ≠ '-' := by
  rw [slug_data_eq] at h
  have hne : truncate40 (trimDashes (collapseDD
      (slugFilterMap (s.data.map goToLower)))) ≠ [] := by
    intro hnil
    rw [hnil] at h
    simp at h
  rw [head?_eq_of_isPrefixOf (truncate40_isPrefixOf _) hne] at h
  exact trimDashes_head?_ne h

/-- C5 counterexample: a 41-character description whose filtered form
has a dash at byte offset 39.  The trim happens before the truncation,
so the truncated slug ends in `-`, and a second application of
`ccDescriptionToSlug` strips that dash: the function is not
idempotent. -/
theorem ccDescriptionToSlug_not_idempotent :
    ccDescriptionToSlug (ccDescriptionToSlug
        "aaaaaaaaaaaaaaaaaaaaaaaaaaaaaaaaaaaaaaa-b") ≠
      ccDescriptionToSlug "aaaaaaaaaaaaaaaaaaaaaaaaaaaaaaaaaaaaaaa-b" := by
  decide

/-- C5 (amended): `ccDescriptionToSlug` is idempotent on every input
whose slug does not end in `-` — equivalently, idempotence can only
fail when the final truncation to 40 bytes leaves a trailing dash,
which the next application trims away. -/
theorem ccDescriptionToSlug_idempotent_unless_trailing_dash (s : String)
    (h : (ccDescriptionToSlug s).data.getLast? ≠ some '-') :
    ccDescriptionToSlug (ccDescriptionToSlug s) = ccDescriptionToSlug s := by
  have hkeep : ∀ c ∈ (ccDescriptionToSlug s).data, isSlugKeep c = true :=
    fun c hc => slug_chars_keep hc
  have hmap : (ccDescriptionToSlug s).data.map goToLower =
      (ccDescriptionToSlug s).data :=
    map_goToLower_of_keep hkeep
  have hfm : slugFilterMap (ccDescriptionToSlug s).data =
      (ccDescriptionToSlug s).data :=
    slugFilterMap_of_keep hkeep
  have hcoll : collapseDD (ccDescriptionToSlug s).data =
      (ccDescriptionToSlug s).data :=
    collapseDD_eq_self (slug_not_containsDD s)
  have hfront : (ccDescriptionToSlug s).data.dropWhile (· == '-') =
      (ccDescriptionToSlug s).data := by
    refine dropWhile_eq_self_of_head fun a ha => ?_
    have := slug_head?_ne ha
    simpa using this
  have hback : (ccDescriptionToSlug s).data.reverse.dropWhile (· == '-') =
      (ccDescriptionToSlug s).data.reverse := by
    refine dropWhile_eq_self_of_head fun a ha => ?_
    rw [List.head?_reverse] at ha
    have : a ≠ '-' := fun hEq => h (hEq ▸ ha)
    simpa using this
  have htrim : trimDashes (ccDescriptionToSlug s).data =
      (ccDescriptionToSlug s).data := by
    rw [trimDashes, hfront, hback, List.reverse_reverse]
  have hlen : (ccDescriptionToSlug s).data.length ≤ 40 := by
    rw [slug_data_eq]
    exact truncate40_length_le _
  have htrunc : truncate40 (ccDescriptionToSlug s).data =
      (ccDescriptionToSlug s).data := by
    unfold truncate40
    rw [if_neg (by omega)]
  ext1
  rw [slug_data_eq (ccDescriptionToSlug s), hmap, hfm, hcoll, htrim, htrunc]

/-- Witness for the amended C5 theorem at a concrete input. -/
theorem ccDescriptionToSlug_idempotent_witness :
    (ccDescriptionToSlug "Run echo command").data.getLast? ≠ some '-' ∧
      ccDescriptionToSlug (ccDescriptionToSlug "Run echo command") =
        ccDescriptionToSlug "Run echo command" :=
  ⟨by decide,
   ccDescriptionToSlug_idempotent_unless_trailing_dash _ (by decide)⟩

/-! ### C6: the slug pipeline matches its specification

The spec states run-collapsing structurally ("collapse every run of
consecutive `-` into a single `-`"); the source iterates
`ReplaceAll("--", "-")` to a fixpoint.  `squeeze` is the structural
version; `collapseDD_eq_squeeze` proves the two agree, and
`ccSlugSpec` below is the spec's wording of the whole pipeline. -/

/-- Structural collapse: every maximal run of `-` becomes a single `-`. -/
def squeeze : List Char → List Char
  | [] => []
  | [c] => [c]
  | c1 :: c2 :: rest =>
    if c1 = '-' && c2 = '-' then squeeze (c2 :: rest)
    else c1 :: squeeze (c2 :: rest)

theorem squeeze_dd (rest : List Char) :
    squeeze ('-' :: '-' :: rest) = squeeze ('-' :: rest) := by
  simp [squeeze]

theorem squeeze_cons_ne {c : Char} (h : c ≠ '-') (rest : List Char) :
    squeeze (c :: rest) = c :: squeeze rest := by
  cases rest with
  | nil => rfl
  | cons c2 r2 => simp [squeeze, h]

theorem squeeze_dash_cons_ne {c : Char} (h : c ≠ '-') (rest : List Char) :
    squeeze ('-' :: c :: rest) = '-' :: squeeze (c :: rest) := by
  simp [squeeze, h]

theorem containsDD_cons_of {c : Char} {l : List Char}
    (h : containsDD l) : containsDD (c :: l) := by
  rcases h with ⟨s, t, hst⟩
  exact ⟨c :: s, t, by rw [← hst]; rfl⟩

theorem squeeze_eq_self : ∀ {l : List Char}, ¬ containsDD l → squeeze l = l := by
  intro l
  induction l with
  | nil => intro _; rfl
  | cons c rest ih =>
    intro h
    have hr : ¬ containsDD rest := fun hc => h (containsDD_cons_of hc)
    cases rest with
    | nil => rfl
    | cons c2 r2 =>
      have hcc : ¬ (c = '-' ∧ c2 = '-') := by
        rintro ⟨rfl, rfl⟩
        exact h ⟨[], r2, rfl⟩
      rw [squeeze, if_neg (by simpa [Bool.and_eq_true, decide_eq_true_eq]
        using hcc)]
      exact congrArg (c :: ·) (ih hr)

theorem replaceAllDD_nil : replaceAllDD [] = [] := rfl

theorem replaceAllDD_dd (r : List Char) :
    replaceAllDD ('-' :: '-' :: r) = '-' :: replaceAllDD r := rfl

theorem replaceAllDD_cons_ne {c : Char} (h : c ≠ '-') (r : List Char) :
    replaceAllDD (c :: r) = c :: replaceAllDD r := by
  rw [replaceAllDD]
  intro r' hc _
  exact h hc

theorem replaceAllDD_singleton (c : Char) : replaceAllDD [c] = [c] := by
  rw [replaceAllDD]
  · rfl
  · intro r' _ habs
    simp at habs

theorem replaceAllDD_dash_cons_ne {c : Char} (h : c ≠ '-') (r : List Char) :
    replaceAllDD ('-' :: c :: r) = '-' :: replaceAllDD (c :: r) := by
  rw [replaceAllDD]
  intro r' _ hcr
  injection hcr with hc _
  exact h hc

theorem squeeze_replaceAllDD :
    ∀ (n : Nat) (l : List Char), l.length ≤ n →
      squeeze (replaceAllDD l) = squeeze l ∧
        squeeze ('-' :: replaceAllDD l) = squeeze ('-' :: l) := by
  intro n
  induction n with
  | zero =>
    intro l hl
    have : l = [] := List.length_eq_zero.1 (Nat.le_zero.1 hl)
    subst this
    exact ⟨rfl, rfl⟩
  | succ n ih =>
    intro l hl
    rcases l with _ | ⟨c1, _ | ⟨c2, r⟩⟩
    · exact ⟨rfl, rfl⟩
    · rw [replaceAllDD_singleton]
      exact ⟨rfl, rfl⟩
    · by_cases h1 : c1 = '-'
      · subst h1
        by_cases h2 : c2 = '-'
        · subst h2
          have hr : r.length ≤ n := by simp at hl; omega
          obtain ⟨-, hQ⟩ := ih r hr
          refine ⟨?_, ?_⟩
          · rw [replaceAllDD_dd, squeeze_dd, hQ]
          · rw [replaceAllDD_dd, squeeze_dd, squeeze_dd, squeeze_dd, hQ]
        · have hr : r.length ≤ n := by simp at hl; omega
          obtain ⟨hP, -⟩ := ih r hr
          have e1 := replaceAllDD_dash_cons_ne h2 r
          have e2 := replaceAllDD_cons_ne h2 r
          refine ⟨?_, ?_⟩
          · rw [e1, e2, squeeze_dash_cons_ne h2, squeeze_cons_ne h2,
              squeeze_dash_cons_ne h2, squeeze_cons_ne h2, hP]
          · rw [e1, e2, squeeze_dd, squeeze_dash_cons_ne h2,
              squeeze_cons_ne h2, squeeze_dd, squeeze_dash_cons_ne h2,
              squeeze_cons_ne h2, hP]
      · have hr : (c2 :: r).length ≤ n := by simp at hl ⊢; omega
        obtain ⟨hP, -⟩ := ih (c2 :: r) hr
        have e1 := replaceAllDD_cons_ne h1 (c2 :: r)
        refine ⟨?_, ?_⟩
        · rw [e1, squeeze_cons_ne h1, squeeze_cons_ne h1, hP]
        · rw [e1, squeeze_dash_cons_ne h1, squeeze_cons_ne h1,
            squeeze_dash_cons_ne h1, squeeze_cons_ne h1, hP]

theorem collapseDD_eq_squeeze_aux :
    ∀ (n : Nat) (l : List Char), l.length ≤ n → collapseDD l = squeeze l := by
  intro n
  induction n with
  | zero =>
    intro l hl
    have : l = [] := List.length_eq_zero.1 (Nat.le_zero.1 hl)
    subst this
    rfl
  | succ n ih =>
    intro l hl
    by_cases h : containsDD l
    · have hlt := replaceAllDD_length_lt h
      rw [collapseDD_step h, ih _ (by omega),
        (squeeze_replaceAllDD l.length l le_rfl).1]
    · rw [collapseDD_eq_self h, squeeze_eq_self h]

theorem collapseDD_eq_squeeze (l : List Char) : collapseDD l = squeeze l :=
  collapseDD_eq_squeeze_aux l.length l le_rfl

/-- The spec's description of the slug pipeline: lowercase, keep
`[a-z0-9-]` mapping space and underscore to `-`, collapse every run of
`-` to a single `-`, trim leading and trailing `-`, truncate to at
most 40 characters. -/
def ccSlugSpec (s : String) : String :=
  String.mk (truncate40 (trimDashes (squeeze
    (slugFilterMap (s.data.map goToLower)))))


/-- C6: `ccDescriptionToSlug` computes exactly the spec's pipeline —
lowercase, keep `[a-z0-9-]` with space and underscore mapped to `-`,
collapse every run of `-` into a single `-`, trim leading and trailing
`-`, truncate to at most 40 characters — and in particular maps
`"Run echo command"` to `"run-echo-command"`, `"  multiple   spaces  "`
to `"multiple-spaces"`, `"under_score test"` to `"under-score-test"`,
and `""` to `""`. -/
theorem ccDescriptionToSlug_spec :
    (∀ s : String, ccDescriptionToSlug s = ccSlugSpec s) ∧
      ccDescriptionToSlug "Run echo command" = "run-echo-command" ∧
      ccDescriptionToSlug "  multiple   spaces  " = "multiple-spaces" ∧
      ccDescriptionToSlug "under_score test" = "under-score-test" ∧
      ccDescriptionToSlug "" = "" := by
  refine ⟨fun s => ?_, by decide⟩
  unfold ccDescriptionToSlug ccSlugSpec
  rw [collapseDD_eq_squeeze]

/-! ## The agent-working decision (`agentWorking`)

The server's `agentWorking` function is exercised by
`server/agent_working_test.go`; its body lives outside the sources at
hand, so it is modelled from the spec (§4.4) and validated against
every row of that test's table below. -/

/-- The wire shape the decision looks at: message type tag and the
optional end-of-turn flag of `APIMessage`. -/
structure APIMessage where
  type : String
  endOfTurn : Option Bool
deriving DecidableEq

/-- Modelled from the spec: the `agentWorking` computation of the
`server` package (its test `TestAgentWorking` is in the sources, the
function body is not).  "Given an ordered list of messages, strip
trailing `gitinfo` entries, then: if empty → not working; otherwise if
the last remaining message is type `agent` with an explicit
end-of-turn flag true → not working; if the last remaining is type
`error` → not working; in all other cases → working." -/
def agentWorking (msgs : List APIMessage) : Bool :=
  match msgs.reverse.dropWhile (fun m => m.type == "gitinfo") with
  | [] => false
  | last :: _ =>
    if last.type == "agent" && last.endOfTurn == some true then false
    else if last.type == "error" then false
    else true

/-- The spec's first step, as a standalone list operation: remove the
trailing run of `gitinfo` messages. -/
def stripTrailingGitinfo (msgs : List APIMessage) : List APIMessage :=
  (msgs.reverse.dropWhile (fun m => m.type == "gitinfo")).reverse

/-- C2: after stripping trailing `gitinfo` messages, the agent-working
computation returns false on an empty remainder, false when the last
remaining message is an `agent` message with end-of-turn explicitly
true or an `error` message, and true in every other case; the ten rows
of `TestAgentWorking` all hold. -/
theorem agentWorking_cases :
    (∀ msgs : List APIMessage,
      agentWorking msgs =
        match (stripTrailingGitinfo msgs).getLast? with
        | none => false
        | some m =>
          if (m.type = "agent" ∧ m.endOfTurn = some true) ∨ m.type = "error"
          then false else true) ∧
    agentWorking [] = false ∧
    agentWorking [⟨"agent", some true⟩] = false ∧
    agentWorking [⟨"agent", some false⟩] = true ∧
    agentWorking [⟨"agent", none⟩] = true ∧
    agentWorking [⟨"error", none⟩] = false ∧
    agentWorking [⟨"agent", some true⟩, ⟨"tool", none⟩] = true ∧
    agentWorking [⟨"agent", some true⟩, ⟨"gitinfo", none⟩] = false ∧
    agentWorking [⟨"agent", some true⟩, ⟨"gitinfo", none⟩,
      ⟨"gitinfo", none⟩] = false ∧
    agentWorking [⟨"agent", some false⟩, ⟨"gitinfo", none⟩] = true ∧
    agentWorking [⟨"gitinfo", none⟩, ⟨"gitinfo", none⟩] = false := by
  refine ⟨fun msgs => ?_, by decide⟩
  unfold agentWorking stripTrailingGitinfo
  rw [List.getLast?_reverse]
  cases h : msgs.reverse.dropWhile (fun m => m.type == "gitinfo") with
  | nil => rfl
  | cons m rest =>
    simp only [List.head?_cons]
    by_cases hA : m.type = "agent" <;> by_cases hE : m.endOfTurn = some true <;>
      by_cases hR : m.type = "error" <;> simp_all

/-! ## Sequenced pub/sub (`subpub`)

The `subpub` package's implementation is exercised by
`subpub/subpub_test.go`; the implementation itself is outside the
sources at hand, so the per-subscriber behaviour is modelled from the
spec (§4.2) and checked against `TestSubPubSubscriberDisconnected`. -/

/-- Modelled from the spec: the state of one subscriber of the
sequenced pub/sub bus. `lastSeen` is the cursor, `buf` the bounded
per-consumer buffer, `closed` records eviction or closure. -/
structure SubscriberState (α : Type) where
  lastSeen : Int
  buf : List α
  closed : Bool
deriving DecidableEq

/-- The per-subscriber buffer capacity (10 slots). -/
def subBufferCap : Nat := 10

/-- Modelled from the spec: what `Publish(seq, payload)` does to one
subscriber.  A closed subscriber is untouched; a payload whose
sequence does not exceed the cursor is not delivered; if the buffer is
full the subscriber is evicted (its buffer is closed); otherwise the
payload is appended and the cursor advances. -/
def publish {α : Type} (seq : Int) (payload : α) (s : SubscriberState α) :
    SubscriberState α :=
  if s.closed then s
  else if seq ≤ s.lastSeen then s
  else if subBufferCap ≤ s.buf.length then { s with closed := true }
  else { s with buf := s.buf ++ [payload], lastSeen := seq }

/-- What one call of the pull function observes. -/
inductive PullResult (α : Type) where
  | msg (a : α)
  | closedChan
  | blocked
deriving DecidableEq

/-- Modelled from the spec: one call of the subscriber's pull
function.  Buffered payloads are returned in order; an empty closed
buffer yields `ok = false` (`closedChan`); an empty open buffer
blocks. -/
def pull {α : Type} (s : SubscriberState α) :
    PullResult α × SubscriberState α :=
  match s.buf with
  | a :: rest => (.msg a, { s with buf := rest })
  | [] => if s.closed then (.closedChan, s) else (.blocked, s)

/-- Modelled from the spec: `Subscribe(ctx, lastSeen)` registers a
fresh subscriber with an empty open buffer. -/
def subscribe {α : Type} (lastSeen : Int) : SubscriberState α :=
  ⟨lastSeen, [], false⟩

/-- A sequence of publishes applied to one subscriber. -/
def publishSeq {α : Type} (pairs : List (Int × α))
    (s : SubscriberState α) : SubscriberState α :=
  pairs.foldl (fun s p => publish p.1 p.2 s) s

/-- Repeated pulls, collecting the observed results. -/
def pullN {α : Type} : Nat → SubscriberState α →
    List (PullResult α) × SubscriberState α
  | 0, s => ([], s)
  | n + 1, s =>
    let (r, s') := pull s
    let (rs, s'') := pullN n s'
    (r :: rs, s'')

/-- C3: a subscriber that subscribes at cursor 0 and then sees 11
publishes with sequence IDs 1..11 before pulling receives exactly the
first 10 payloads in publish order, then observes `ok = false`; being
evicted is permanent, so every further pull also observes
`ok = false`. -/
theorem subpub_overflow_evicts :
    (pullN 12 (publishSeq
        ((List.range 11).map fun i => ((i : Int) + 1, (i : Int) + 1))
        (subscribe 0))).1 =
      [.msg 1, .msg 2, .msg 3, .msg 4, .msg 5, .msg 6, .msg 7, .msg 8,
        .msg 9, .msg 10, .closedChan, .closedChan] ∧
    (∀ s : SubscriberState Int, s.closed = true → s.buf = [] →
      pull s = (.closedChan, s)) := by
  constructor
  · decide
  · intro s hclosed hbuf
    cases s
    simp_all [pull]

/-- Witness for the second, hypothesis-bearing conjunct of
`subpub_overflow_evicts` at a concrete evicted subscriber. -/
theorem subpub_overflow_evicts_witness :
    pull (⟨0, [], true⟩ : SubscriberState Int) =
      (.closedChan, (⟨0, [], true⟩ : SubscriberState Int)) :=
  subpub_overflow_evicts.2 _ rfl rfl

/-! ## Message store: `CreateMessage` and sequence-ID assignment

Translated from `db/db.go` (`CreateMessage`): inside one write
transaction the store asks `GetNextSequenceID` for the conversation's
next sequence ID and inserts the row with it.  The payload columns are
opaque marshalled JSON (`Option String` here; the marshalling itself
is JSON-library glue and failures abort before the transaction). -/

/-- A row of the `messages` table, as returned by the store. -/
structure Message where
  messageID : String
  conversationID : String
  sequenceID : Int
  type : String
  llmData : Option String
  userData : Option String
  usageData : Option String
  displayData : Option String
deriving DecidableEq

/-- `CreateMessageParams` of `db/db.go`, with the payloads already
marshalled. -/
structure CreateMessageParams where
  conversationID : String
  type : String
  llmData : Option String
  userData : Option String
  usageData : Option String
  displayData : Option String

/-- The sequence IDs of a conversation's rows, in insertion order. -/
def conversationSeqIDs (store : List Message) (conv : String) : List Int :=
  (store.filter fun m => m.conversationID == conv).map (·.sequenceID)

/-- `MAX(sequence_id)` over a list of rows; `none` on an empty set. -/
def maxSeq : List Int → Option Int
  | [] => none
  | a :: rest =>
    match maxSeq rest with
    | none => some a
    | some b => some (max a b)

/-- Modelled from the spec: the `GetNextSequenceID` query (its SQL
file is not among the sources; `db/db.go` calls it inside the
`CreateMessage` transaction).  Per the spec it returns
`max(existing) + 1`, or 1 when the conversation has no messages. -/
def getNextSequenceID (store : List Message) (conv : String) : Int :=
  match maxSeq (conversationSeqIDs store conv) with
  | none => 1
  | some mx => mx + 1

/-- `CreateMessage` of `db/db.go`: within one write transaction,
fetch the next sequence ID and insert the row; returns the complete
record.  `msgID` stands for the freshly generated UUID. -/
def createMessage (store : List Message) (msgID : String)
    (p : CreateMessageParams) : Message × List Message :=
  let seq := getNextSequenceID store p.conversationID
  let m : Message :=
    ⟨msgID, p.conversationID, seq, p.type,
      p.llmData, p.userData, p.usageData, p.displayData⟩
  (m, store ++ [m])

/-- The invariant of C1: `(conversation_id, sequence_id)` pairs are
unique across the table. -/
def seqPairsUnique (store : List Message) : Prop :=
  (store.map fun m => (m.conversationID, m.sequenceID)).Nodup

theorem maxSeq_eq_none_iff {l : List Int} : maxSeq l = none ↔ l = [] := by
  cases l with
  | nil => simp [maxSeq]
  | cons a rest =>
    simp only [maxSeq]
    cases maxSeq rest <;> simp

theorem le_maxSeq : ∀ {l : List Int} {a mx : Int},
    a ∈ l → maxSeq l = some mx → a ≤ mx := by
  intro l
  induction l with
  | nil => intro a mx h; simp at h
  | cons b rest ih =>
    intro a mx hmem hmax
    simp only [maxSeq] at hmax
    cases hrest : maxSeq rest with
    | none =>
      rw [hrest] at hmax
      have : rest = [] := maxSeq_eq_none_iff.1 hrest
      subst this
      simp only [Option.some.injEq] at hmax
      rcases List.mem_cons.1 hmem with rfl | h2
      · omega
      · simp at h2
    | some c =>
      rw [hrest] at hmax
      simp only [Option.some.injEq] at hmax
      subst hmax
      rcases List.mem_cons.1 hmem with rfl | h2
      · exact le_max_left _ _
      · exact le_trans (ih h2 hrest) (le_max_right _ _)

theorem lt_getNextSequenceID {store : List Message} {conv : String} :
    ∀ q ∈ conversationSeqIDs store conv, q < getNextSequenceID store conv := by
  intro q hq
  unfold getNextSequenceID
  cases hmax : maxSeq (conversationSeqIDs store conv) with
  | none =>
    rw [maxSeq_eq_none_iff.1 hmax] at hq
    simp at hq
  | some mx =>
    have := le_maxSeq hq hmax
    show q < mx + 1
    omega

theorem conversationSeqIDs_append (store : List Message) (m : Message)
    (conv : String) :
    conversationSeqIDs (store ++ [m]) conv =
      conversationSeqIDs store conv ++
        (if m.conversationID == conv then [m.sequenceID] else []) := by
  unfold conversationSeqIDs
  rw [List.filter_append, List.map_append]
  congr 1
  by_cases h : m.conversationID == conv <;> simp [List.filter, h]

/-- C1: `CreateMessage` assigns the new row's sequence ID inside the
inserting transaction as `GetNextSequenceID` of the same snapshot:
1 when the conversation has no rows, `max(existing) + 1` otherwise;
the assigned ID strictly exceeds every existing sequence ID of the
conversation, so `(conversation_id, sequence_id)` uniqueness is
preserved and the IDs of successively created messages of one
conversation strictly increase. -/
theorem createMessage_assigns_next_sequence :
    ∀ (store : List Message) (msgID : String) (p : CreateMessageParams),
      ((createMessage store msgID p).1.sequenceID =
        getNextSequenceID store p.conversationID) ∧
      (conversationSeqIDs store p.conversationID = [] →
        (createMessage store msgID p).1.sequenceID = 1) ∧
      (∀ mx, maxSeq (conversationSeqIDs store p.conversationID) = some mx →
        (createMessage store msgID p).1.sequenceID = mx + 1) ∧
      (∀ q ∈ conversationSeqIDs store p.conversationID,
        q < (createMessage store msgID p).1.sequenceID) ∧
      (seqPairsUnique store → seqPairsUnique (createMessage store msgID p).2) ∧
      (∀ (msgID₂ : String) (p₂ : CreateMessageParams),
        p₂.conversationID = p.conversationID →
        (createMessage store msgID p).1.sequenceID <
          (createMessage (createMessage store msgID p).2 msgID₂ p₂).1.sequenceID) := by
  intro store msgID p
  refine ⟨rfl, ?_, ?_, ?_, ?_, ?_⟩
  · intro hempty
    show getNextSequenceID store p.conversationID = 1
    unfold getNextSequenceID
    rw [hempty]
    rfl
  · intro mx hmax
    show getNextSequenceID store p.conversationID = mx + 1
    unfold getNextSequenceID
    rw [hmax]
  · exact lt_getNextSequenceID
  · intro huniq
    unfold seqPairsUnique at huniq ⊢
    show ((store ++ [_]).map _).Nodup
    rw [List.map_append, List.nodup_append]
    refine ⟨huniq, by simp, ?_⟩
    intro a ha hb
    simp only [List.map_cons, List.map_nil, List.mem_singleton] at hb
    rcases List.mem_map.1 ha with ⟨m', hm', rfl⟩
    rw [Prod.mk.injEq] at hb
    obtain ⟨hconv, hseq⟩ := hb
    have hmem : m'.sequenceID ∈ conversationSeqIDs store p.conversationID := by
      unfold conversationSeqIDs
      exact List.mem_map_of_mem _
        (List.mem_filter.2 ⟨hm', by simp [hconv]⟩)
    have hlt := lt_getNextSequenceID _ hmem
    rw [hseq] at hlt
    omega
  · intro msgID₂ p₂ hconv
    show getNextSequenceID store p.conversationID <
      getNextSequenceID ((createMessage store msgID p).2) p₂.conversationID
    rw [hconv]
    refine lt_getNextSequenceID _ ?_
    rw [show (createMessage store msgID p).2 =
        store ++ [(createMessage store msgID p).1] from rfl,
      conversationSeqIDs_append]
    simp [createMessage]

/-- Witness for `createMessage_assigns_next_sequence` on the empty
store with a concrete parameter record. -/
theorem createMessage_assigns_next_sequence_witness :
    conversationSeqIDs [] "c1" = [] ∧
      (createMessage [] "id1"
        ⟨"c1", "user", none, none, none, none⟩).1.sequenceID = 1 :=
  ⟨rfl, (createMessage_assigns_next_sequence [] "id1"
    ⟨"c1", "user", none, none, none, none⟩).2.1 rfl⟩

/-! ## Schema migrations (`Migrate`)

Translated from `db/db.go` (`Migrate`): list the embedded schema
files, keep the names matching `^(\d{3})-.*\.sql$`, sort
lexicographically, read the set of already-executed migration numbers
once, then apply each not-yet-executed file and record its number.
The SQL execution itself is opaque: it is a caller-supplied effect
`apply` on an abstract schema type, which may fail (`Except`). -/

/-- Models Go `regexp` `^(\d{3})-.*\.sql$` (`.` does not match a
newline): three digits, a dash, any newline-free middle, and the
suffix `.sql`. -/
def matchesMigration (name : String) : Bool :=
  match name.data with
  | d1 :: d2 :: d3 :: '-' :: rest =>
    d1.isDigit && d2.isDigit && d3.isDigit &&
      decide (4 ≤ rest.length) &&
      rest.drop (rest.length - 4) == ['.', 's', 'q', 'l'] &&
      (rest.take (rest.length - 4)).all (· != '\n')
  | _ => false

/-- `strconv.Atoi` applied to the submatch of the three digits. -/
def migrationNumber (name : String) : Nat :=
  match name.data with
  | d1 :: d2 :: d3 :: _ =>
    (d1.toNat - 48) * 100 + (d2.toNat - 48) * 10 + (d3.toNat - 48)
  | _ => 0

/-- Insertion of one string into a sorted list (used to model
`sort.Strings`: a lexicographically non-decreasing permutation). -/
def insertSorted (a : String) : List String → List String
  | [] => [a]
  | b :: rest => if a ≤ b then a :: b :: rest else b :: insertSorted a rest

/-- Models `sort.Strings`. -/
def sortStrings (l : List String) : List String :=
  l.foldr insertSorted []

/-- The database state `Migrate` acts on: an abstract schema (the
cumulative effect of executed SQL) and the `migrations` ledger of
`(migration_number, migration_name)` rows.  A database without a
`migrations` table is represented by an empty ledger, which is how
`Migrate` reads it. -/
structure MigState (σ : Type) where
  schema : σ
  table : List (Nat × String)

/-- The migration loop of `Migrate`: `executed` is the snapshot of
recorded numbers taken before the loop; a file whose number is in the
snapshot is skipped, any other file is applied and its number
recorded. -/
def migrateFiles {σ : Type} (apply : σ → String → Except String σ)
    (executed : List Nat) :
    List String → MigState σ → Except String (MigState σ)
  | [], st => .ok st
  | name :: rest, st =>
    if migrationNumber name ∈ executed then
      migrateFiles apply executed rest st
    else
      match apply st.schema name with
      | .error e => .error e
      | .ok schema' =>
        migrateFiles apply executed rest
          ⟨schema', st.table ++ [(migrationNumber name, name)]⟩

/-- The matching files in lexicographic order. -/
def sortedMigrations (files : List String) : List String :=
  sortStrings (files.filter matchesMigration)

/-- `Migrate` of `db/db.go` over the abstract state. -/
def migrate {σ : Type} (files : List String)
    (apply : σ → String → Except String σ) (st : MigState σ) :
    Except String (MigState σ) :=
  migrateFiles apply (st.table.map (·.1)) (sortedMigrations files) st

/-- The canonical instantiation of the schema effect: the schema is
the ordered list of executed migration files. -/
def listApply (s : List String) (f : String) : Except String (List String) :=
  .ok (s ++ [f])

theorem migrateFiles_postcondition {σ : Type}
    (apply : σ → String → Except String σ) :
    ∀ (migs : List String) (executed : List Nat) (st st' : MigState σ),
      (∀ n ∈ executed, n ∈ st.table.map (·.1)) →
      migrateFiles apply executed migs st = .ok st' →
      (∃ ext, st'.table = st.table ++ ext) ∧
        ∀ f ∈ migs, migrationNumber f ∈ st'.table.map (·.1) := by
  intro migs
  induction migs with
  | nil =>
    intro executed st st' _ hrun
    simp only [migrateFiles] at hrun
    cases hrun
    exact ⟨⟨[], by simp⟩, by simp⟩
  | cons name rest ih =>
    intro executed st st' hsub hrun
    simp only [migrateFiles] at hrun
    by_cases hskip : migrationNumber name ∈ executed
    · rw [if_pos hskip] at hrun
      obtain ⟨⟨ext, hext⟩, hall⟩ := ih executed st st' hsub hrun
      refine ⟨⟨ext, hext⟩, ?_⟩
      intro f hf
      rcases List.mem_cons.1 hf with rfl | hf2
      · have := hsub _ hskip
        rw [hext, List.map_append]
        exact List.mem_append_left _ this
      · exact hall f hf2
    · rw [if_neg hskip] at hrun
      cases happ : apply st.schema name with
      | error e => rw [happ] at hrun; cases hrun
      | ok schema' =>
        rw [happ] at hrun
        have hsub2 : ∀ n ∈ executed,
            n ∈ (MigState.table ⟨schema',
              st.table ++ [(migrationNumber name, name)]⟩).map (·.1) := by
          intro n hn
          rw [List.map_append]
          exact List.mem_append_left _ (hsub n hn)
        obtain ⟨⟨ext, hext⟩, hall⟩ := ih executed _ st' hsub2 hrun
        simp only at hext
        refine ⟨⟨[(migrationNumber name, name)] ++ ext, by
          rw [hext, List.append_assoc]⟩, ?_⟩
        intro f hf
        rcases List.mem_cons.1 hf with rfl | hf2
        · rw [hext, List.map_append, List.map_append]
          exact List.mem_append_left _ (List.mem_append_right _ (by simp))
        · exact hall f hf2

theorem migrateFiles_all_skipped {σ : Type}
    (apply : σ → String → Except String σ) :
    ∀ (migs : List String) (executed : List Nat) (st : MigState σ),
      (∀ f ∈ migs, migrationNumber f ∈ executed) →
      migrateFiles apply executed migs st = .ok st := by
  intro migs
  induction migs with
  | nil => intro executed st _; rfl
  | cons name rest ih =>
    intro executed st hall
    simp only [migrateFiles]
    rw [if_pos (hall name (by simp))]
    exact ih executed st fun f hf => hall f (List.mem_cons_of_mem _ hf)

theorem migrateFiles_listApply :
    ∀ (migs : List String) (executed : List Nat) (st : MigState (List String)),
      migrateFiles listApply executed migs st = .ok
        ⟨st.schema ++ (migs.filter fun f => !decide (migrationNumber f ∈ executed)),
          st.table ++ (migs.filter fun f => !decide (migrationNumber f ∈ executed)).map
            fun f => (migrationNumber f, f)⟩ := by
  intro migs
  induction migs with
  | nil =>
    intro executed st
    simp [migrateFiles]
  | cons name rest ih =>
    intro executed st
    simp only [migrateFiles]
    by_cases hskip : migrationNumber name ∈ executed
    · rw [if_pos hskip, ih executed st]
      simp [List.filter_cons, hskip]
    · rw [if_neg hskip]
      show migrateFiles listApply executed rest
          ⟨st.schema ++ [name], st.table ++ [(migrationNumber name, name)]⟩ = _
      rw [ih executed _]
      simp [List.filter_cons, hskip, List.append_assoc]

/-- C4: `Migrate` is idempotent — a second run after a successful one
applies nothing and returns the state unchanged (schema and
`migrations` table); moreover a run applies exactly the files matching
`^(\d{3})-.*\.sql$`, in lexicographic order, skipping every file whose
parsed number is already recorded in the `migrations` table, as the
canonical schema-listing instantiation makes explicit. -/
theorem migrate_idempotent :
    (∀ (σ : Type) (files : List String)
        (apply : σ → String → Except String σ) (st st' : MigState σ),
      migrate files apply st = .ok st' →
      migrate files apply st' = .ok st') ∧
    (∀ (files : List String) (st : MigState (List String)),
      migrate files listApply st = .ok
        ⟨st.schema ++ ((sortedMigrations files).filter fun f =>
            !decide (migrationNumber f ∈ st.table.map (·.1))),
          st.table ++ ((sortedMigrations files).filter fun f =>
            !decide (migrationNumber f ∈ st.table.map (·.1))).map
              fun f => (migrationNumber f, f)⟩) := by
  constructor
  · intro σ files apply st st' hrun
    unfold migrate at hrun ⊢
    obtain ⟨-, hall⟩ := migrateFiles_postcondition apply
      (sortedMigrations files) (st.table.map (·.1)) st st' (fun n hn => hn) hrun
    exact migrateFiles_all_skipped apply _ _ st' hall
  · intro files st
    exact migrateFiles_listApply (sortedMigrations files) _ st

/-- Witness for the idempotence half of `migrate_idempotent` at a
concrete file list and empty database. -/
theorem migrate_idempotent_witness :
    migrate ["001-base.sql", "notes.txt"] listApply
        (⟨[], []⟩ : MigState (List String)) =
      .ok ⟨["001-base.sql"], [(1, "001-base.sql")]⟩ ∧
    migrate ["001-base.sql", "notes.txt"] listApply
        (⟨["001-base.sql"], [(1, "001-base.sql")]⟩ : MigState (List String)) =
      .ok ⟨["001-base.sql"], [(1, "001-base.sql")]⟩ :=
  ⟨rfl, migrate_idempotent.1 (List String) ["001-base.sql", "notes.txt"]
    listApply ⟨[], []⟩ ⟨["001-base.sql"], [(1, "001-base.sql")]⟩ rfl⟩

/-! ## Sub-agent slug collision retry (`GetOrCreateSubagentConversation`)

Translated from `db/db.go` (`SubagentDBAdapter.GetOrCreateSubagentConversation`):
after an exact-slug lookup, creation is attempted up to 100 times; a
driver error whose lowercased text contains `unique constraint` or
`duplicate` is treated as a slug collision and retried with the base
slug suffixed `-1`, `-2`, …; any other error is returned immediately. -/

/-- `strings.ToLower` on an error message (faithful on ASCII, which is
what the SQLite driver produces). -/
def goToLowerString (s : String) : String :=
  String.mk (s.data.map goToLower)

/-- `strings.Contains(s, sub)`. -/
def strContains (s sub : String) : Bool :=
  decide (sub.data <:+: s.data)

/-- The collision test of the source:
`strings.Contains(errLower, "unique constraint") || strings.Contains(errLower, "duplicate")`
on `errLower := strings.ToLower(err.Error())`. -/
def isConstraintViolation (e : String) : Bool :=
  strContains (goToLowerString e) "unique constraint" ||
    strContains (goToLowerString e) "duplicate"

/-- Outcome of one `CreateSubagentConversation` call: the new
conversation's ID, or the driver error text. -/
inductive CreateResult where
  | ok (conversationID : String)
  | err (msg : String)
deriving DecidableEq

/-- Whether a creation outcome is classified as a slug collision. -/
def isCollision : CreateResult → Bool
  | .ok _ => false
  | .err e => isConstraintViolation e

/-- The retry loop of `GetOrCreateSubagentConversation`, on the number
of remaining attempts (the Go loop runs `attempt = 0 .. 99`, so it
starts with 100 attempts remaining). -/
def subagentAttemptLoop (create : String → CreateResult) (baseSlug : String) :
    Nat → String → Nat → Except String (String × String)
  | 0, _, _ => .error "failed to create unique subagent slug after 100 attempts"
  | remaining + 1, actualSlug, attempt =>
    match create actualSlug with
    | .ok cid => .ok (cid, actualSlug)
    | .err e =>
      if isConstraintViolation e then
        subagentAttemptLoop create baseSlug remaining
          (baseSlug ++ "-" ++ toString (attempt + 1)) (attempt + 1)
      else .error e

/-- `GetOrCreateSubagentConversation`: return the existing
conversation when the `(slug, parent)` lookup finds one, otherwise run
the creation-retry loop.  `lookup` stands for the result of
`GetConversationBySlugAndParent` (ID and slug of the existing row),
`create` for `CreateSubagentConversation` as a function of the slug
attempted. -/
def getOrCreateSubagentConversation (lookup : Option (String × String))
    (create : String → CreateResult) (slug : String) :
    Except String (String × String) :=
  match lookup with
  | some (cid, s) => .ok (cid, s)
  | none => subagentAttemptLoop create slug 100 slug 0

/-- The slug used on attempt `k` (0-based): the base slug, then
`base-1`, `base-2`, … -/
def slugAt (base : String) : Nat → String
  | 0 => base
  | k + 1 => base ++ "-" ++ toString (k + 1)

theorem subagentAttemptLoop_ok :
    ∀ (remaining attempt n : Nat) (create : String → CreateResult)
      (base cid : String),
      attempt + remaining = 100 → attempt ≤ n → n < 100 →
      (∀ i, attempt ≤ i → i < n → isCollision (create (slugAt base i)) = true) →
      create (slugAt base n) = .ok cid →
      subagentAttemptLoop create base remaining (slugAt base attempt) attempt =
        .ok (cid, slugAt base n) := by
  intro remaining
  induction remaining with
  | zero =>
    intro attempt n create base cid hsum hle hlt _ _
    omega
  | succ r ih =>
    intro attempt n create base cid hsum hle hlt hcoll hok
    by_cases heq : attempt = n
    · subst heq
      simp only [subagentAttemptLoop, hok]
    · have hcolla := hcoll attempt le_rfl (by omega)
      cases hc : create (slugAt base attempt) with
      | ok cid' => rw [hc] at hcolla; simp [isCollision] at hcolla
      | err e =>
        rw [hc] at hcolla
        simp only [isCollision] at hcolla
        simp only [subagentAttemptLoop, hc]
        rw [if_pos hcolla]
        have hs : base ++ "-" ++ toString (attempt + 1) = slugAt base (attempt + 1) := rfl
        rw [hs]
        exact ih (attempt + 1) n create base cid (by omega) (by omega) hlt
          (fun i h1 h2 => hcoll i (by omega) h2) hok

theorem subagentAttemptLoop_exhausted :
    ∀ (remaining attempt : Nat) (create : String → CreateResult) (base : String),
      attempt + remaining = 100 →
      (∀ i, attempt ≤ i → i < 100 → isCollision (create (slugAt base i)) = true) →
      subagentAttemptLoop create base remaining (slugAt base attempt) attempt =
        .error "failed to create unique subagent slug after 100 attempts" := by
  intro remaining
  induction remaining with
  | zero => intro attempt create base _ _; rfl
  | succ r ih =>
    intro attempt create base hsum hcoll
    have hcolla := hcoll attempt le_rfl (by omega)
    cases hc : create (slugAt base attempt) with
    | ok cid' => rw [hc] at hcolla; simp [isCollision] at hcolla
    | err e =>
      rw [hc] at hcolla
      simp only [isCollision] at hcolla
      simp only [subagentAttemptLoop, hc]
      rw [if_pos hcolla]
      have hs : base ++ "-" ++ toString (attempt + 1) = slugAt base (attempt + 1) := rfl
      rw [hs]
      exact ih (attempt + 1) create base (by omega)
        (fun i h1 h2 => hcoll i (by omega) h2)

theorem subagentAttemptLoop_other_error :
    ∀ (remaining attempt n : Nat) (create : String → CreateResult)
      (base e : String),
      attempt + remaining = 100 → attempt ≤ n → n < 100 →
      (∀ i, attempt ≤ i → i < n → isCollision (create (slugAt base i)) = true) →
      create (slugAt base n) = .err e → isConstraintViolation e = false →
      subagentAttemptLoop create base remaining (slugAt base attempt) attempt =
        .error e := by
  intro remaining
  induction remaining with
  | zero =>
    intro attempt n create base e hsum hle hlt _ _ _
    omega
  | succ r ih =>
    intro attempt n create base e hsum hle hlt hcoll herr hnc
    by_cases heq : attempt = n
    · subst heq
      simp only [subagentAttemptLoop, herr]
      rw [if_neg (by simp [hnc])]
    · have hcolla := hcoll attempt le_rfl (by omega)
      cases hc : create (slugAt base attempt) with
      | ok cid' => rw [hc] at hcolla; simp [isCollision] at hcolla
      | err e' =>
        rw [hc] at hcolla
        simp only [isCollision] at hcolla
        simp only [subagentAttemptLoop, hc]
        rw [if_pos hcolla]
        have hs : base ++ "-" ++ toString (attempt + 1) = slugAt base (attempt + 1) := rfl
        rw [hs]
        exact ih (attempt + 1) n create base e (by omega) (by omega) hlt
          (fun i h1 h2 => hcoll i (by omega) h2) herr hnc

/-- C7: the creation path of `GetOrCreateSubagentConversation`
classifies an error as a slug collision exactly when its lowercased
text contains `unique constraint` or `duplicate`; on collisions it
retries with `base-1`, `base-2`, …, making at most 100 creation
attempts in total — succeeding as soon as an attempt succeeds,
returning the after-100-attempts error when all 100 attempts collide,
and returning any non-collision error immediately. -/
theorem getOrCreateSubagent_collision_retry :
    (∀ (create : String → CreateResult) (slug cid : String) (n : Nat),
      n < 100 →
      (∀ i < n, isCollision (create (slugAt slug i)) = true) →
      create (slugAt slug n) = .ok cid →
      getOrCreateSubagentConversation none create slug =
        .ok (cid, slugAt slug n)) ∧
    (∀ (create : String → CreateResult) (slug : String),
      (∀ i < 100, isCollision (create (slugAt slug i)) = true) →
      getOrCreateSubagentConversation none create slug =
        .error "failed to create unique subagent slug after 100 attempts") ∧
    (∀ (create : String → CreateResult) (slug e : String) (n : Nat),
      n < 100 →
      (∀ i < n, isCollision (create (slugAt slug i)) = true) →
      create (slugAt slug n) = .err e → isConstraintViolation e = false →
      getOrCreateSubagentConversation none create slug = .error e) ∧
    (∀ e : String, isConstraintViolation e =
      (strContains (goToLowerString e) "unique constraint" ||
        strContains (goToLowerString e) "duplicate")) := by
  refine ⟨?_, ?_, ?_, fun e => rfl⟩
  · intro create slug cid n hn hcoll hok
    exact subagentAttemptLoop_ok 100 0 n create slug cid rfl (Nat.zero_le _) hn
      (fun i _ h2 => hcoll i h2) hok
  · intro create slug hcoll
    exact subagentAttemptLoop_exhausted 100 0 create slug rfl
      (fun i _ h2 => hcoll i h2)
  · intro create slug e n hn hcoll herr hnc
    exact subagentAttemptLoop_other_error 100 0 n create slug e rfl
      (Nat.zero_le _) hn (fun i _ h2 => hcoll i h2) herr hnc

/-- Witness for `getOrCreateSubagent_collision_retry`: a creator that
reports a UNIQUE-constraint violation on the base slug and succeeds on
`task-1`; and a creator whose failure is not a constraint violation. -/
theorem getOrCreateSubagent_collision_retry_witness :
    getOrCreateSubagentConversation none
        (fun s => if s = "task"
          then .err "UNIQUE constraint failed: conversations.slug"
          else .ok "c12345") "task" = .ok ("c12345", "task-1") ∧
    getOrCreateSubagentConversation none
        (fun _ => .err "disk I/O error") "task" = .error "disk I/O error" :=
  ⟨getOrCreateSubagent_collision_retry.1
      (fun s => if s = "task"
        then .err "UNIQUE constraint failed: conversations.slug"
        else .ok "c12345") "task" "c12345" 1 (by decide)
      (by decide) (by decide),
   (getOrCreateSubagent_collision_retry.2.2.1
      (fun _ => .err "disk I/O error") "task" "disk I/O error" 0 (by decide)
      (by omega) rfl (by decide))⟩

/-! ## Deterministic session UUID (`conversationIDToUUID`)

Translated from `claudecode_loop.go`:

```go
func conversationIDToUUID(id string) string {
    h := sha256.Sum256([]byte(id))
    return fmt.Sprintf("%08x-%04x-%04x-%04x-%012x",
        h[0:4], h[4:6], h[6:8], h[8:10], h[10:16])
}
```

SHA-256 (FIPS 180-4, as implemented by Go `crypto/sha256`) is
implemented below over `Nat` with explicit reduction mod `2 ^ 32`;
bytes are `Nat` values below 256. -/

/-- UTF-8 encoding of one rune (models Go `[]byte(string)`). -/
def utf8Encode (c : Char) : List Nat :=
  let n := c.toNat
  if n < 128 then [n]
  else if n < 2048 then [192 + n / 64, 128 + n % 64]
  else if n < 65536 then
    [224 + n / 4096, 128 + (n / 64) % 64, 128 + n % 64]
  else
    [240 + n / 262144, 128 + (n / 4096) % 64, 128 + (n / 64) % 64,
      128 + n % 64]

/-- The bytes of a string (models Go `[]byte(s)`). -/
def stringBytes (s : String) : List Nat :=
  (s.data.map utf8Encode).flatten

/-- Reduction to a 32-bit word. -/
def w32 (n : Nat) : Nat := n % 4294967296

/-- 32-bit rotate right. -/
def rotr (k n : Nat) : Nat := w32 ((n >>> k) ||| (n <<< (32 - k)))

def smallSigma0 (x : Nat) : Nat := (rotr 7 x) ^^^ (rotr 18 x) ^^^ (x >>> 3)

def smallSigma1 (x : Nat) : Nat := (rotr 17 x) ^^^ (rotr 19 x) ^^^ (x >>> 10)

def bigSigma0 (x : Nat) : Nat := (rotr 2 x) ^^^ (rotr 13 x) ^^^ (rotr 22 x)

def bigSigma1 (x : Nat) : Nat := (rotr 6 x) ^^^ (rotr 11 x) ^^^ (rotr 25 x)

/-- The SHA-256 round constants. -/
def sha256K : List Nat :=
  [1116352408, 1899447441, 3049323471, 3921009573,
   961987163, 1508970993, 2453635748, 2870763221,
   3624381080, 310598401, 607225278, 1426881987,
   1925078388, 2162078206, 2614888103, 3248222580,
   3835390401, 4022224774, 264347078, 604807628,
   770255983, 1249150122, 1555081692, 1996064986,
   2554220882, 2821834349, 2952996808, 3210313671,
   3336571891, 3584528711, 113926993, 338241895,
   666307205, 773529912, 1294757372, 1396182291,
   1695183700, 1986661051, 2177026350, 2456956037,
   2730485921, 2820302411, 3259730800, 3345764771,
   3516065817, 3600352804, 4094571909, 275423344,
   430227734, 506948616, 659060556, 883997877,
   958139571, 1322822218, 1537002063, 1747873779,
   1955562222, 2024104815, 2227730452, 2361852424,
   2428436474, 2756734187, 3204031479, 3329325298]

/-- The SHA-256 working state (eight 32-bit words). -/
structure Sha256State where
  a : Nat
  b : Nat
  c : Nat
  d : Nat
  e : Nat
  f : Nat
  g : Nat
  h : Nat

def sha256Init : Sha256State :=
  ⟨1779033703, 3144134277, 1013904242, 2773480762,
   1359893119, 2600822924, 528734635, 1541459225⟩

/-- Four big-endian bytes as one word. -/
def bytesToWord (b0 b1 b2 b3 : Nat) : Nat :=
  b0 * 16777216 + b1 * 65536 + b2 * 256 + b3

/-- A 64-byte chunk as sixteen words. -/
def toWords : List Nat → List Nat
  | b0 :: b1 :: b2 :: b3 :: rest => bytesToWord b0 b1 b2 b3 :: toWords rest
  | _ => []

/-- Message-schedule extension, on the reversed schedule so far. -/
def extendLoop : Nat → List Nat → List Nat
  | 0, acc => acc
  | k + 1, acc =>
    let wi := w32 (smallSigma1 (acc.getD 1 0) + acc.getD 6 0 +
      smallSigma0 (acc.getD 14 0) + acc.getD 15 0)
    extendLoop k (wi :: acc)

/-- The 64-word message schedule of one chunk. -/
def schedule (ws : List Nat) : List Nat :=
  (extendLoop 48 ws.reverse).reverse

/-- `ch(e, f, g)`; the complement is XOR with the all-ones word. -/
def sha256Ch (e f g : Nat) : Nat := (e &&& f) ^^^ ((4294967295 ^^^ e) &&& g)

def sha256Maj (a b c : Nat) : Nat := (a &&& b) ^^^ (a &&& c) ^^^ (b &&& c)

/-- The 64 compression rounds, driven by the constants and schedule. -/
def compressLoop : List Nat → List Nat → Sha256State → Sha256State
  | k :: ks, w :: ws, ⟨a, b, c, d, e, f, g, h⟩ =>
    let t1 := w32 (h + bigSigma1 e + sha256Ch e f g + k + w)
    let t2 := w32 (bigSigma0 a + sha256Maj a b c)
    compressLoop ks ws ⟨w32 (t1 + t2), a, b, c, w32 (d + t1), e, f, g⟩
  | _, _, st => st

/-- One chunk: compress and add into the hash state. -/
def processChunk (st : Sha256State) (chunk : List Nat) : Sha256State :=
  let st' := compressLoop sha256K (schedule (toWords chunk)) st
  ⟨w32 (st.a + st'.a), w32 (st.b + st'.b), w32 (st.c + st'.c),
   w32 (st.d + st'.d), w32 (st.e + st'.e), w32 (st.f + st'.f),
   w32 (st.g + st'.g), w32 (st.h + st'.h)⟩

/-- Merkle–Damgård padding: `0x80`, zeros to 56 mod 64, then the
64-bit big-endian bit length. -/
def sha256Pad (msg : List Nat) : List Nat :=
  let bitLen := msg.length * 8
  let zeros := (119 - msg.length % 64) % 64
  msg ++ [128] ++ List.replicate zeros 0 ++
    [(bitLen >>> 56) % 256, (bitLen >>> 48) % 256, (bitLen >>> 40) % 256,
     (bitLen >>> 32) % 256, (bitLen >>> 24) % 256, (bitLen >>> 16) % 256,
     (bitLen >>> 8) % 256, bitLen % 256]

/-- Split into 64-byte chunks (fuel-driven; the padded length is a
positive multiple of 64, and `fuel = length` always suffices). -/
def chunksGo : Nat → List Nat → List (List Nat)
  | 0, _ => []
  | _ + 1, [] => []
  | fuel + 1, l => l.take 64 :: chunksGo fuel (l.drop 64)

def chunks (l : List Nat) : List (List Nat) := chunksGo l.length l

/-- The four big-endian bytes of a word. -/
def wordBytes (w : Nat) : List Nat :=
  [(w >>> 24) % 256, (w >>> 16) % 256, (w >>> 8) % 256, w % 256]

def sha256StateBytes (st : Sha256State) : List Nat :=
  wordBytes st.a ++ wordBytes st.b ++ wordBytes st.c ++ wordBytes st.d ++
    wordBytes st.e ++ wordBytes st.f ++ wordBytes st.g ++ wordBytes st.h

/-- SHA-256 of a byte sequence (models `sha256.Sum256`). -/
def sha256 (msg : List Nat) : List Nat :=
  sha256StateBytes ((chunks (sha256Pad msg)).foldl processChunk sha256Init)

-- FIPS 180-4 test vectors
set_option maxRecDepth 4000 in
example : sha256 [] =
  [0xe3, 0xb0, 0xc4, 0x42, 0x98, 0xfc, 0x1c, 0x14, 0x9a, 0xfb, 0xf4, 0xc8,
   0x99, 0x6f, 0xb9, 0x24, 0x27, 0xae, 0x41, 0xe4, 0x64, 0x9b, 0x93, 0x4c,
   0xa4, 0x95, 0x99, 0x1b, 0x78, 0x52, 0xb8, 0x55] := by decide
set_option maxRecDepth 4000 in
example : sha256 (stringBytes "abc") =
  [0xba, 0x78, 0x16, 0xbf, 0x8f, 0x01, 0xcf, 0xea, 0x41, 0x41, 0x40, 0xde,
   0x5d, 0xae, 0x22, 0x23, 0xb0, 0x03, 0x61, 0xa3, 0x96, 0x17, 0x7a, 0x9c,
   0xb4, 0x10, 0xff, 0x61, 0xf2, 0x00, 0x15, 0xad] := by decide
set_option maxRecDepth 8000 in
example : sha256 (stringBytes
    "abcdbcdecdefdefgefghfghighijhijkijkljklmklmnlmnomnopnopq") =
  [0x24, 0x8d, 0x6a, 0x61, 0xd2, 0x06, 0x38, 0xb8, 0xe5, 0xc0, 0x26, 0x93,
   0x0c, 0x3e, 0x60, 0x39, 0xa3, 0x3c, 0xe4, 0x59, 0x64, 0xff, 0x21, 0x67,
   0xf6, 0xec, 0xed, 0xd4, 0x19, 0xdb, 0x06, 0xc1] := by decide

/-- The lowercase hex digit of a value below 16 (Go `%x`). -/
def hexDigitChar (n : Nat) : Char :=
  if n < 10 then Char.ofNat (48 + n) else Char.ofNat (87 + n)

/-- Lowercase hexadecimal digits. -/
def hexChars : List Char := (List.range 16).map hexDigitChar

/-- The two lowercase hex digits of a byte (Go `%x` on a byte). -/
def byteHex (b : Nat) : List Char :=
  [hexDigitChar ((b / 16) % 16), hexDigitChar (b % 16)]

/-- Go `%x` on a byte slice: each byte as two lowercase hex digits. -/
def bytesHex (l : List Nat) : List Char :=
  (l.map byteHex).flatten

/-- `conversationIDToUUID` of `claudecode_loop.go`: SHA-256 the ID and
format the slices `h[0:4]`, `h[4:6]`, `h[6:8]`, `h[8:10]`, `h[10:16]`
with `%08x-%04x-%04x-%04x-%012x`. -/
def conversationIDToUUID (id : String) : String :=
  let h := sha256 (stringBytes id)
  String.mk (bytesHex (h.take 4) ++ '-' ::
    (bytesHex ((h.drop 4).take 2) ++ '-' ::
      (bytesHex ((h.drop 6).take 2) ++ '-' ::
        (bytesHex ((h.drop 8).take 2) ++ '-' ::
          bytesHex ((h.drop 10).take 6)))))

/-- The spec's formatting of 16 bytes as a canonical 8-4-4-4-12 UUID. -/
def uuidFormat (bytes : List Nat) : List Char :=
  bytesHex (bytes.take 4) ++ '-' ::
    (bytesHex ((bytes.drop 4).take 2) ++ '-' ::
      (bytesHex ((bytes.drop 6).take 2) ++ '-' ::
        (bytesHex ((bytes.drop 8).take 2) ++ '-' ::
          bytesHex ((bytes.drop 10).take 6))))

/-- The fixed part of the `claude` CLI argument list built by
`processMessage`. -/
def claudeBaseArgs (prompt mcpFile : String) : List String :=
  ["-p", prompt, "--verbose", "--output-format", "stream-json",
   "--max-turns", "25", "--permission-mode", "bypassPermissions",
   "--mcp-config", mcpFile, "--include-partial-messages"]

/-- The argument list of `processMessage`: the session UUID is passed
via `--session-id` when the loop's history is empty (first turn) and
via `--resume` otherwise. -/
def processMessageArgs {α : Type} (history : List α)
    (prompt mcpFile convID : String) : List String :=
  claudeBaseArgs prompt mcpFile ++
    (if history.length = 0
      then ["--session-id", conversationIDToUUID convID]
      else ["--resume", conversationIDToUUID convID])

theorem bytesHex_length (l : List Nat) : (bytesHex l).length = 2 * l.length := by
  induction l with
  | nil => rfl
  | cons b rest ih =>
    simp only [bytesHex, List.map_cons, List.flatten_cons, List.length_append]
    simp only [bytesHex] at ih
    rw [ih]
    simp [byteHex]
    omega

theorem sha256_length (msg : List Nat) : (sha256 msg).length = 32 := by
  simp [sha256, sha256StateBytes, wordBytes]

theorem hexDigitChar_mem {n : Nat} (h : n < 16) : hexDigitChar n ∈ hexChars :=
  List.mem_map.2 ⟨n, List.mem_range.2 h, rfl⟩

theorem mem_bytesHex {c : Char} :
    ∀ {l : List Nat}, c ∈ bytesHex l → c ∈ hexChars := by
  intro l
  induction l with
  | nil => intro h; simp [bytesHex] at h
  | cons b rest ih =>
    intro h
    simp only [bytesHex, List.map_cons, List.flatten_cons,
      List.mem_append] at h
    rcases h with h | h
    · simp only [byteHex, List.mem_cons, List.mem_singleton] at h
      rcases h with rfl | rfl | h
      · exact hexDigitChar_mem (Nat.mod_lt _ (by omega))
      · exact hexDigitChar_mem (Nat.mod_lt _ (by omega))
      · simp at h
    · exact ih (by simpa [bytesHex] using h)

/-- C8: the session identifier is a deterministic pure function of the
conversation ID — the first 16 bytes of SHA-256 of the ID formatted as
a 36-character lowercase-hex 8-4-4-4-12 UUID — and `processMessage`
passes it via `--session-id` on the first turn (empty history) and via
`--resume` on every later turn. -/
theorem conversationIDToUUID_spec :
    (∀ id : String, (conversationIDToUUID id).data =
      uuidFormat ((sha256 (stringBytes id)).take 16)) ∧
    (∀ id : String, (conversationIDToUUID id).length = 36) ∧
    (∀ id : String, ∃ g1 g2 g3 g4 g5 : List Char,
      (conversationIDToUUID id).data =
        g1 ++ '-' :: (g2 ++ '-' :: (g3 ++ '-' :: (g4 ++ '-' :: g5))) ∧
      g1.length = 8 ∧ g2.length = 4 ∧ g3.length = 4 ∧ g4.length = 4 ∧
        g5.length = 12 ∧
      ∀ c, (c ∈ g1 ∨ c ∈ g2 ∨ c ∈ g3 ∨ c ∈ g4 ∨ c ∈ g5) → c ∈ hexChars) ∧
    (∀ id₁ id₂ : String, id₁ = id₂ →
      conversationIDToUUID id₁ = conversationIDToUUID id₂) ∧
    (∀ (α : Type) (history : List α) (prompt mcpFile convID : String),
      (history = [] → processMessageArgs history prompt mcpFile convID =
        claudeBaseArgs prompt mcpFile ++
          ["--session-id", conversationIDToUUID convID]) ∧
      (history ≠ [] → processMessageArgs history prompt mcpFile convID =
        claudeBaseArgs prompt mcpFile ++
          ["--resume", conversationIDToUUID convID])) := by
  refine ⟨?_, ?_, ?_, fun id₁ id₂ h => congrArg _ h, ?_⟩
  · intro id
    show bytesHex ((sha256 (stringBytes id)).take 4) ++ _ = _
    unfold uuidFormat
    simp only [List.take_take, List.drop_take]
    norm_num
  · intro id
    show (bytesHex ((sha256 (stringBytes id)).take 4) ++ '-' :: _).length = 36
    have hlen := sha256_length (stringBytes id)
    simp [bytesHex_length, List.length_take, List.length_drop, hlen]
  · intro id
    refine ⟨bytesHex ((sha256 (stringBytes id)).take 4),
      bytesHex (((sha256 (stringBytes id)).drop 4).take 2),
      bytesHex (((sha256 (stringBytes id)).drop 6).take 2),
      bytesHex (((sha256 (stringBytes id)).drop 8).take 2),
      bytesHex (((sha256 (stringBytes id)).drop 10).take 6),
      rfl, ?_, ?_, ?_, ?_, ?_, ?_⟩
    · have hlen := sha256_length (stringBytes id)
      simp [bytesHex_length, List.length_take, hlen]
    · have hlen := sha256_length (stringBytes id)
      simp [bytesHex_length, List.length_take, List.length_drop, hlen]
    · have hlen := sha256_length (stringBytes id)
      simp [bytesHex_length, List.length_take, List.length_drop, hlen]
    · have hlen := sha256_length (stringBytes id)
      simp [bytesHex_length, List.length_take, List.length_drop, hlen]
    · have hlen := sha256_length (stringBytes id)
      simp [bytesHex_length, List.length_take, List.length_drop, hlen]
    · rintro c (h | h | h | h | h) <;> exact mem_bytesHex h
  · intro α history prompt mcpFile convID
    constructor
    · intro h
      subst h
      rfl
    · intro h
      unfold processMessageArgs
      rw [if_neg (by simpa using h)]

/-- Witness for the hypothesis-bearing conjuncts of
`conversationIDToUUID_spec` at concrete inputs. -/
theorem conversationIDToUUID_spec_witness :
    conversationIDToUUID "c1" = conversationIDToUUID "c1" ∧
    processMessageArgs ([] : List Nat) "p" "mcp.json" "c1" =
      claudeBaseArgs "p" "mcp.json" ++
        ["--session-id", conversationIDToUUID "c1"] ∧
    processMessageArgs [0] "p" "mcp.json" "c1" =
      claudeBaseArgs "p" "mcp.json" ++
        ["--resume", conversationIDToUUID "c1"] :=
  ⟨conversationIDToUUID_spec.2.2.2.1 "c1" "c1" rfl,
   (conversationIDToUUID_spec.2.2.2.2 Nat [] "p" "mcp.json" "c1").1 rfl,
   (conversationIDToUUID_spec.2.2.2.2 Nat [0] "p" "mcp.json" "c1").2
     (by simp)⟩

/-! ## Tool-result content parsing (`parseToolResultContent`)

Translated from `claudecode_loop.go` (`processStream`'s
`parseToolResultContent` closure).  `encoding/json` is a collaborator:
JSON payloads are modelled by the `Json` value type, and the two
`json.Unmarshal` target shapes by the `goUnmarshal…` functions, with
Go's semantics that `null` leaves the target's zero value in place and
a shape mismatch fails the whole unmarshal. -/

/-- A parsed JSON value.  The raw bytes of a payload are recovered by
`jsonRender`. -/
inductive Json where
  | null
  | bool (b : Bool)
  | num (n : Int)
  | str (s : String)
  | arr (elems : List Json)
  | obj (fields : List (String × Json))

mutual

/-- Compact rendering of a JSON value — the model of the raw bytes
`string(raw)` of a payload (string escaping elided). -/
def jsonRender : Json → String
  | .null => "null"
  | .bool b => cond b "true" "false"
  | .num n => toString n
  | .str s => "\"" ++ s ++ "\""
  | .arr xs => "[" ++ jsonRenderList xs ++ "]"
  | .obj fs => "\x7b" ++ jsonRenderFields fs ++ "\x7d"

def jsonRenderList : List Json → String
  | [] => ""
  | [x] => jsonRender x
  | x :: rest => jsonRender x ++ "," ++ jsonRenderList rest

def jsonRenderFields : List (String × Json) → String
  | [] => ""
  | [(k, v)] => "\"" ++ k ++ "\":" ++ jsonRender v
  | (k, v) :: rest => "\"" ++ k ++ "\":" ++ jsonRender v ++ "," ++
      jsonRenderFields rest

end

/-- Models `json.Unmarshal(raw, &s)` for `s string`: succeeds exactly
on a JSON string (yielding it) or `null` (leaving the zero value). -/
def goUnmarshalString : Json → Option String
  | .str s => some s
  | .null => some ""
  | _ => none

/-- The `source` sub-struct of a typed tool-result block. -/
structure CCResultSource where
  stype : String
  mediaType : String
  sdata : String

/-- One entry of the typed tool-result block array. -/
structure CCResultBlock where
  btype : String
  text : String
  source : Option CCResultSource

/-- First binding of a key in a JSON object. -/
def jsonLookup (fields : List (String × Json)) (key : String) : Option Json :=
  match fields with
  | [] => none
  | (k, v) :: rest => if k = key then some v else jsonLookup rest key

/-- A string-typed field: absent or `null` leaves the zero value, a
non-string value fails the unmarshal. -/
def decodeStrField (fields : List (String × Json)) (key : String) :
    Option String :=
  match jsonLookup fields key with
  | none => some ""
  | some (.str s) => some s
  | some .null => some ""
  | some _ => none

/-- Unmarshalling of the `source` pointer field. -/
def decodeSource : Json → Option (Option CCResultSource)
  | .null => some none
  | .obj fs => do
    let t ← decodeStrField fs "type"
    let mt ← decodeStrField fs "media_type"
    let d ← decodeStrField fs "data"
    some (some ⟨t, mt, d⟩)
  | _ => none

/-- Unmarshalling of one array entry into the block struct. -/
def decodeBlock : Json → Option CCResultBlock
  | .null => some ⟨"", "", none⟩
  | .obj fs => do
    let t ← decodeStrField fs "type"
    let tx ← decodeStrField fs "text"
    let src ←
      match jsonLookup fs "source" with
      | none => some none
      | some j => decodeSource j
    some ⟨t, tx, src⟩
  | _ => none

/-- Models `json.Unmarshal(raw, &blocks)` for the block-array shape:
succeeds exactly on an array whose every entry unmarshals (or `null`,
leaving the nil slice). -/
def goUnmarshalBlocks : Json → Option (List CCResultBlock)
  | .null => some []
  | .arr xs => xs.mapM decodeBlock
  | _ => none

/-- `llm.Content` (package `llm`; modelled from its use in the stream
adapter): a tagged record whose `toolResult` field nests content. -/
inductive LContent where
  | mk
    (ctype : String)
    (text : String)
    (thinking : String)
    (id : String)
    (toolName : String)
    (toolInput : Json)
    (mediaType : String)
    (dataStr : String)
    (toolUseID : String)
    (toolResult : List LContent)
    (toolError : Bool)

def LContent.ctype : LContent → String
  | .mk t _ _ _ _ _ _ _ _ _ _ => t

/-- `llm.Content{Type: ContentTypeText, Text: s}`. -/
def LContent.textBlock (s : String) : LContent :=
  .mk "text" s "" "" "" .null "" "" "" [] false

/-- `llm.Content{Type: ContentTypeThinking, Thinking: s}`. -/
def LContent.thinkingBlock (s : String) : LContent :=
  .mk "thinking" "" s "" "" .null "" "" "" [] false

/-- `llm.Content{Type: ContentTypeToolUse, ID:, ToolName:, ToolInput:}`. -/
def LContent.toolUseBlock (id name : String) (input : Json) : LContent :=
  .mk "tool_use" "" "" id name input "" "" "" [] false

/-- `llm.Content{Type: ContentTypeText, MediaType:, Data:}` — the
image-bearing block the parser emits. -/
def LContent.dataBlock (mediaType dataStr : String) : LContent :=
  .mk "text" "" "" "" "" .null mediaType dataStr "" [] false

/-- `llm.Content{Type: ContentTypeToolResult, ToolUseID:, ToolResult:, ToolError:}`. -/
def LContent.toolResultBlock (toolUseID : String) (result : List LContent)
    (isErr : Bool) : LContent :=
  .mk "tool_result" "" "" "" "" .null "" "" toolUseID result isErr

/-- One step of the parser's block loop: a `text` entry appends a text
block, an `image` entry with a non-nil base64 source appends a
data-bearing block, anything else is skipped. -/
def resultBlockStep (out : List LContent) (bl : CCResultBlock) :
    List LContent :=
  if bl.btype = "text" then out ++ [.textBlock bl.text]
  else if bl.btype = "image" then
    match bl.source with
    | some src =>
      if src.stype = "base64" then
        out ++ [.dataBlock src.mediaType src.sdata]
      else out
    | none => out
  else out

/-- `parseToolResultContent` of `claudecode_loop.go`: try a bare JSON
string, then the typed block array, then fall back to the raw bytes as
opaque text. -/
def parseToolResultContent (raw : Json) : List LContent :=
  match goUnmarshalString raw with
  | some plainText => [.textBlock plainText]
  | none =>
    match goUnmarshalBlocks raw with
    | some blocks => blocks.foldl resultBlockStep []
    | none => [.textBlock (jsonRender raw)]

/-- The recognized output of one block entry, as the spec states it. -/
def recognizedBlocks (bl : CCResultBlock) : List LContent :=
  resultBlockStep [] bl

theorem resultBlockStep_eq_append (out : List LContent) (bl : CCResultBlock) :
    resultBlockStep out bl = out ++ recognizedBlocks bl := by
  unfold recognizedBlocks resultBlockStep
  split_ifs with h1 h2
  · simp
  · cases bl.source with
    | none => simp
    | some src =>
      by_cases h3 : src.stype = "base64" <;> simp [h3]
  · simp

theorem foldl_resultBlockStep (blocks : List CCResultBlock) :
    ∀ out, blocks.foldl resultBlockStep out =
      out ++ blocks.flatMap recognizedBlocks := by
  induction blocks with
  | nil => intro out; simp
  | cons bl rest ih =>
    intro out
    simp only [List.foldl_cons, List.flatMap_cons]
    rw [resultBlockStep_eq_append, ih, List.append_assoc]

/-- C9: `parseToolResultContent` is a total deterministic function of
the tool-result payload that tries the three shapes in order: a bare
JSON string yields exactly one text block with that string; a typed
block array yields the recognized blocks, one group per entry (a text
block per `text` entry, a data-bearing block per `image` entry with a
base64 source); anything else yields exactly one text block carrying
the raw payload verbatim. -/
theorem parseToolResultContent_spec :
    (∀ s : String, parseToolResultContent (.str s) = [.textBlock s]) ∧
    (∀ (xs : List Json) (blocks : List CCResultBlock),
      goUnmarshalBlocks (.arr xs) = some blocks →
      parseToolResultContent (.arr xs) = blocks.flatMap recognizedBlocks) ∧
    (∀ raw : Json, goUnmarshalString raw = none →
      goUnmarshalBlocks raw = none →
      parseToolResultContent raw = [.textBlock (jsonRender raw)]) ∧
    (∀ raw₁ raw₂ : Json, raw₁ = raw₂ →
      parseToolResultContent raw₁ = parseToolResultContent raw₂) ∧
    parseToolResultContent
        (.arr [.obj [("type", .str "text"), ("text", .str "hi")]]) =
      [.textBlock "hi"] ∧
    parseToolResultContent (.obj [("weird", .bool true)]) =
      [.textBlock "\x7b\"weird\":true\x7d"] := by
  refine ⟨fun s => rfl, ?_, ?_, fun r₁ r₂ h => congrArg _ h, rfl, rfl⟩
  · intro xs blocks hdec
    unfold parseToolResultContent
    simp only [goUnmarshalString]
    rw [hdec]
    exact foldl_resultBlockStep blocks []
  · intro raw hs hb
    unfold parseToolResultContent
    rw [hs, hb]

/-- Witness for the hypothesis-bearing conjuncts of
`parseToolResultContent_spec` at concrete payloads. -/
theorem parseToolResultContent_spec_witness :
    parseToolResultContent (.arr [.obj [("type", .str "text"),
        ("text", .str "ok")]]) =
      [CCResultBlock.mk "text" "ok" none].flatMap recognizedBlocks ∧
    parseToolResultContent (.num 3) = [.textBlock (jsonRender (.num 3))] :=
  ⟨parseToolResultContent_spec.2.1 _ [⟨"text", "ok", none⟩] rfl,
   parseToolResultContent_spec.2.2.1 (.num 3) rfl rfl⟩

/-! ## The stream adapter (`processStream`)

Translated from `claudecode_loop.go` (`processStream`): the
line-delimited event loop with its top-level assistant/user
reassembly, the CC Task sub-agent bridge, and the deferred flush that
runs on every exit path.  A scanned line is one `CCEvent`; blank or
unparseable lines and uninteresting event types are `skip`/`other`.
`recordMessage` calls append to `recorded` lists; the sub-agent
manager's `SetAgentWorking` flag is the session's `working` field. -/

/-- One entry of `claudeStreamMessage.Content` (fields as used by
`processStream`; `input` and `content` are raw JSON). -/
structure CCStreamBlock where
  btype : String
  text : String
  thinking : String
  id : String
  name : String
  input : Json
  toolUseID : String
  content : Json
  isError : Bool

/-- The embedded `message` of a stream event. -/
structure CCMessage where
  id : String
  content : List CCStreamBlock

/-- One scanned line of the stream. -/
inductive CCEvent where
  | skip
  | other (etype : String)
  | assistant (msg : CCMessage) (parentToolUseID : String)
  | user (msg : CCMessage) (parentToolUseID : String)
      (hasToolUseResult : Bool)

/-- `llm.Message` as the adapter builds it. -/
structure LMessage where
  role : String
  endOfTurn : Bool
  content : List LContent

/-- `ccTaskInput` of `claudecode_loop.go`. -/
structure CCTaskInput where
  description : String
  prompt : String
  subagentType : String

def strOrEmpty : Option Json → String
  | some (.str s) => s
  | _ => ""

/-- `json.Unmarshal(c.Input, &input)` with the error ignored: absent
or mismatching fields leave their zero values. -/
def parseTaskInput : Json → CCTaskInput
  | .obj fs => ⟨strOrEmpty (jsonLookup fs "description"),
      strOrEmpty (jsonLookup fs "prompt"),
      strOrEmpty (jsonLookup fs "subagent_type")⟩
  | _ => ⟨"", "", ""⟩

/-- `ccSubagentSession`, together with the observable state of its
subconversation manager: messages recorded through `recordMessage`
and the `agentWorking` flag. -/
structure SubSession where
  lastMsgID : String
  pendingAssistant : Option LMessage
  pendingUser : Option LMessage
  recorded : List LMessage
  working : Bool

/-- The adapter's whole state: the pending top-level messages, the
main conversation's records and history, the tracked Task inputs and
the sub-agent sessions (in creation order). -/
structure StreamState where
  currentAssistant : Option LMessage
  currentUser : Option LMessage
  currentMsgID : String
  recorded : List LMessage
  history : List LMessage
  taskInputs : List (String × CCTaskInput)
  sessions : List (String × SubSession)

def msgHasToolUse (m : LMessage) : Bool :=
  m.content.any fun c => c.ctype == "tool_use"

/-- `flushAssistant`: record the pending assistant message (with the
end-of-turn flag derived from the absence of `tool_use` blocks). -/
def flushAssistantState (st : StreamState) : StreamState :=
  match st.currentAssistant with
  | none => st
  | some m =>
    let m' := { m with endOfTurn := !(msgHasToolUse m) }
    { st with
      currentAssistant := none
      recorded := st.recorded ++ [m']
      history := st.history ++ [m'] }

/-- `flushUser`: record the pending user message. -/
def flushUserState (st : StreamState) : StreamState :=
  match st.currentUser with
  | none => st
  | some m =>
    { st with
      currentUser := none
      recorded := st.recorded ++ [m]
      history := st.history ++ [m] }

/-- `flushSubagentAssistant`. -/
def flushSubAssistant (sa : SubSession) : SubSession :=
  match sa.pendingAssistant with
  | none => sa
  | some m =>
    let m' := { m with endOfTurn := !(msgHasToolUse m) }
    { sa with
      pendingAssistant := none
      recorded := sa.recorded ++ [m'] }

/-- `flushSubagentUser`. -/
def flushSubUser (sa : SubSession) : SubSession :=
  match sa.pendingUser with
  | none => sa
  | some m =>
    { sa with
      pendingUser := none
      recorded := sa.recorded ++ [m] }

/-- Flush both pending messages of a session and clear its working
flag (the completion path and the deferred cleanup both do this). -/
def completeSession (sa : SubSession) : SubSession :=
  let sa := flushSubUser (flushSubAssistant sa)
  { sa with working := false }

def lookupAssoc {β : Type} : List (String × β) → String → Option β
  | [], _ => none
  | (k, v) :: rest, key => if k = key then some v else lookupAssoc rest key

/-- Point update of one session in the map. -/
def updateSession (sessions : List (String × SubSession)) (key : String)
    (f : SubSession → SubSession) : List (String × SubSession) :=
  sessions.map fun p => if p.1 = key then (p.1, f p.2) else p

/-- The slug for a Task sub-agent: `ccDescriptionToSlug` of the task
description, falling back to the first 12 bytes of the tool-use ID. -/
def subagentSlug (input : CCTaskInput) (parentToolUseID : String) : String :=
  let slug := ccDescriptionToSlug input.description
  if slug = "" then
    if parentToolUseID.length > 12
      then String.mk (parentToolUseID.data.take 12)
      else parentToolUseID
  else slug

/-- `getOrCreateSubagentSession`: no bridge → no session; an existing
session is reused; otherwise a session is created from the tracked
Task input (skipped when the Task `tool_use` has not been seen or the
bridge fails), with its manager set working.  Returns whether a
session is available. -/
def getOrCreateSession (bridge : Option (String → Bool)) (st : StreamState)
    (ptuid : String) : StreamState × Bool :=
  match bridge with
  | none => (st, false)
  | some canCreate =>
    match lookupAssoc st.sessions ptuid with
    | some _ => (st, true)
    | none =>
      match lookupAssoc st.taskInputs ptuid with
      | none => (st, false)
      | some input =>
        if canCreate (subagentSlug input ptuid) then
          let newSS := st.sessions ++ [(ptuid, ⟨"", none, none, [], true⟩)]
          ({ st with sessions := newSS }, true)
        else (st, false)

/-- The content appended for one block of an assistant event. -/
def assistantBlockContent (c : CCStreamBlock) : List LContent :=
  if c.btype = "text" then [.textBlock c.text]
  else if c.btype = "thinking" then [.thinkingBlock c.thinking]
  else if c.btype = "tool_use" then [.toolUseBlock c.id c.name c.input]
  else []

/-- The content appended for one block of a top-level user event
(`tool_result` only). -/
def userBlockContent (c : CCStreamBlock) : List LContent :=
  if c.btype = "tool_result" then
    [.toolResultBlock c.toolUseID (parseToolResultContent c.content)
      c.isError]
  else []

/-- The content appended for one block of a sub-agent user event
(forwarded prompt text or `tool_result`). -/
def subUserBlockContent (c : CCStreamBlock) : List LContent :=
  if c.btype = "text" then [.textBlock c.text]
  else if c.btype = "tool_result" then
    [.toolResultBlock c.toolUseID (parseToolResultContent c.content)
      c.isError]
  else []

def appendPending (m : Option LMessage) (cs : List LContent) :
    Option LMessage :=
  match m with
  | none => none
  | some m => some { m with content := m.content ++ cs }

/-- The sub-agent assistant branch: a new message ID (or no pending
assistant) flushes the session's pendings and opens a fresh assistant
message; blocks are appended to it. -/
def subagentAssistantStep (msgID : String) (blocks : List CCStreamBlock)
    (sa : SubSession) : SubSession :=
  let sa :=
    if msgID != sa.lastMsgID || sa.pendingAssistant.isNone then
      let sa := flushSubUser (flushSubAssistant sa)
      { sa with
        lastMsgID := msgID
        pendingAssistant := some ⟨"assistant", false, []⟩ }
    else sa
  let newPA := appendPending sa.pendingAssistant
    (blocks.flatMap assistantBlockContent)
  { sa with pendingAssistant := newPA }

/-- The sub-agent user branch: flush the pending assistant, open a
user message if needed, append the blocks. -/
def subagentUserStep (blocks : List CCStreamBlock) (sa : SubSession) :
    SubSession :=
  let sa := flushSubAssistant sa
  let sa :=
    if sa.pendingUser.isNone
      then { sa with pendingUser := some ⟨"user", false, []⟩ }
      else sa
  let newPU := appendPending sa.pendingUser
    (blocks.flatMap subUserBlockContent)
  { sa with pendingUser := newPU }

/-- One iteration of the scan loop of `processStream`. -/
def processEvent (bridge : Option (String → Bool)) (st : StreamState) :
    CCEvent → StreamState
  | .skip => st
  | .other _ => st
  | .assistant msg ptuid =>
    let st :=
      if ptuid = "" then
        let newTI := msg.content.foldl
          (fun ti c =>
            if c.btype = "tool_use" ∧ c.name = "Task"
              then (c.id, parseTaskInput c.input) :: ti
              else ti)
          st.taskInputs
        { st with taskInputs := newTI }
      else st
    if ptuid ≠ "" then
      let (st, found) := getOrCreateSession bridge st ptuid
      if found then
        let newSS := updateSession st.sessions ptuid
          (subagentAssistantStep msg.id msg.content)
        { st with sessions := newSS }
      else st
    else
      let st :=
        if msg.id != st.currentMsgID || st.currentAssistant.isNone then
          let st := flushUserState (flushAssistantState st)
          { st with
            currentMsgID := msg.id
            currentAssistant := some ⟨"assistant", false, []⟩ }
        else st
      let newCA := appendPending st.currentAssistant
        (msg.content.flatMap assistantBlockContent)
      { st with currentAssistant := newCA }
  | .user msg ptuid hasTUR =>
    let st :=
      if ptuid = "" ∧ hasTUR then
        msg.content.foldl
          (fun st c =>
            if c.btype = "tool_result" then
              let newSS := updateSession st.sessions c.toolUseID completeSession
              { st with sessions := newSS }
            else st)
          st
      else st
    if ptuid ≠ "" then
      let (st, found) := getOrCreateSession bridge st ptuid
      if found then
        let newSS := updateSession st.sessions ptuid
          (subagentUserStep msg.content)
        { st with sessions := newSS }
      else st
    else
      let st := flushAssistantState st
      let st :=
        if st.currentUser.isNone
          then { st with currentUser := some ⟨"user", false, []⟩ }
          else st
      let newCU := appendPending st.currentUser
        (msg.content.flatMap userBlockContent)
      { st with currentUser := newCU }

/-- The deferred cleanup of `processStream`: flush the pending
top-level messages, then flush every in-flight sub-agent session and
clear its working flag. -/
def finalizeStream (st : StreamState) : StreamState :=
  let st := flushUserState (flushAssistantState st)
  let newSS := st.sessions.map fun p => (p.1, completeSession p.2)
  { st with sessions := newSS }

def initialStreamState : StreamState := ⟨none, none, "", [], [], [], []⟩

/-- `processStream`: scan every event, then run the deferred cleanup —
which runs no matter where the stream ends. -/
def processStream (bridge : Option (String → Bool))
    (events : List CCEvent) : StreamState :=
  finalizeStream (events.foldl (processEvent bridge) initialStreamState)

theorem flushSubAssistant_pendingAssistant (sa : SubSession) :
    (flushSubAssistant sa).pendingAssistant = none := by
  obtain ⟨l, pa, pu, r, w⟩ := sa
  cases pa <;> rfl

theorem flushSubUser_fields (sa : SubSession) :
    (flushSubUser sa).pendingUser = none ∧
      (flushSubUser sa).pendingAssistant = sa.pendingAssistant ∧
      (flushSubUser sa).working = sa.working := by
  obtain ⟨l, pa, pu, r, w⟩ := sa
  cases pu <;> exact ⟨rfl, rfl, rfl⟩

theorem completeSession_fields (sa : SubSession) :
    (completeSession sa).pendingAssistant = none ∧
      (completeSession sa).pendingUser = none ∧
      (completeSession sa).working = false := by
  unfold completeSession
  refine ⟨?_, ?_, rfl⟩
  · have h2 := (flushSubUser_fields (flushSubAssistant sa)).2.1
    show (flushSubUser (flushSubAssistant sa)).pendingAssistant = none
    rw [h2, flushSubAssistant_pendingAssistant]
  · exact (flushSubUser_fields (flushSubAssistant sa)).1

theorem flushUserState_currentAssistant (st : StreamState) :
    (flushUserState st).currentAssistant = st.currentAssistant := by
  obtain ⟨ca, cu, mid, r, h, ti, ss⟩ := st
  cases cu <;> rfl

theorem flushAssistantState_currentAssistant (st : StreamState) :
    (flushAssistantState st).currentAssistant = none := by
  obtain ⟨ca, cu, mid, r, h, ti, ss⟩ := st
  cases ca <;> rfl

theorem flushUserState_currentUser (st : StreamState) :
    (flushUserState st).currentUser = none := by
  obtain ⟨ca, cu, mid, r, h, ti, ss⟩ := st
  cases cu <;> rfl

/-- C10: whenever `processStream` returns — on any event sequence,
including streams that end abruptly without a Task completion marker,
and for any bridge — the pending top-level assistant and user
messages have been flushed, and every sub-agent session in the state
has its pending messages flushed and its agent-working flag false;
moreover flushing does record the pending message through
`recordMessage` (appending it to the conversation's records). -/
theorem processStream_flushes :
    (∀ (bridge : Option (String → Bool)) (events : List CCEvent),
      (processStream bridge events).currentAssistant = none ∧
      (processStream bridge events).currentUser = none ∧
      ∀ p ∈ (processStream bridge events).sessions,
        p.2.pendingAssistant = none ∧ p.2.pendingUser = none ∧
          p.2.working = false) ∧
    (∀ (st : StreamState) (m : LMessage), st.currentAssistant = some m →
      (flushAssistantState st).recorded =
        st.recorded ++ [{ m with endOfTurn := !(msgHasToolUse m) }]) ∧
    (∀ (st : StreamState) (m : LMessage), st.currentUser = some m →
      (flushUserState st).recorded = st.recorded ++ [m]) := by
  refine ⟨?_, ?_, ?_⟩
  · intro bridge events
    unfold processStream finalizeStream
    refine ⟨?_, ?_, ?_⟩
    · rw [flushUserState_currentAssistant, flushAssistantState_currentAssistant]
    · rw [flushUserState_currentUser]
    · intro p hp
      simp only [List.mem_map] at hp
      rcases hp with ⟨q, -, rfl⟩
      exact completeSession_fields q.2
  · intro st m h
    unfold flushAssistantState
    rw [h]
  · intro st m h
    unfold flushUserState
    rw [h]

/-- Witness for the hypothesis-bearing conjuncts of
`processStream_flushes` at a concrete pending state. -/
theorem processStream_flushes_witness :
    (flushAssistantState
        ⟨some ⟨"assistant", false, [.textBlock "hi"]⟩, none, "m1",
          [], [], [], []⟩).recorded =
      [] ++ [{ LMessage.mk "assistant" false [.textBlock "hi"] with
        endOfTurn := !(msgHasToolUse
          (LMessage.mk "assistant" false [.textBlock "hi"])) }] ∧
    (flushUserState
        ⟨none, some ⟨"user", false, []⟩, "m1", [], [], [], []⟩).recorded =
      [] ++ [LMessage.mk "user" false []] :=
  ⟨processStream_flushes.2.1 _ _ rfl, processStream_flushes.2.2 _ _ rfl⟩

end Shelley
